import Mathlib

/-!
# A shallow embedding of `src/sat-solver.cpp`

The solver keeps its data in global vectors.  Here every function receives the
globals it reads as arguments and returns the ones it writes.

* `set<int>` is a list of literals in the order the set iterates them (ascending).
* `vector<int> assgms` is a list of integers; entry `0` is unused, `1` is true,
  `-1` is false and `0` is not decided.
* `watched_lits` stores addresses of clauses.  The address of `clauses[k]` is
  modelled by the index `k`.
* Reading a vector outside its bounds yields `0` (respectively the empty list)
  and writing outside is ignored; the C++ program has no defined behaviour
  there, and the theorems below state their range hypotheses explicitly.
* Loops that need not terminate, and the recursion of `solve`, take a `fuel`
  argument and return `none` when it runs out.
-/

namespace SatSolver

/-- A clause: the literals of a `set<int>` in iteration order. -/
abbrev Clause := List Int

/-- The global `clauses`. -/
abbrev Formula := List Clause

/-- A `vector<int>` of truth values indexed by variable. -/
abbrev Assignment := List Int

/-- The global `watched_lits`: for every variable the clause addresses watching it. -/
abbrev WatchIndex := List (List Nat)

/-- The index expression `(v > 0) ? v : -v`. -/
def varOf (v : Int) : Nat := (if v > 0 then v else -v).toNat

/-- The value expression `(v > 0) ? 1 : -1`. -/
def signOf (v : Int) : Int := if v > 0 then 1 else -1

/-- The read `assgms[i]`. -/
def valAt (assgms : Assignment) (i : Nat) : Int := assgms.getD i 0

/-- The read `watched_lits[i]`. -/
def watchersOf (W : WatchIndex) (i : Nat) : List Nat := W.getD i []

/-- The call `watched_lits[i].push_back(p)`. -/
def pushWatch (W : WatchIndex) (i : Nat) (p : Nat) : WatchIndex :=
  W.set i (watchersOf W i ++ [p])

/-- The call `watched_lits[i].erase(it)` with `it` at position `k`. -/
def eraseWatch (W : WatchIndex) (i : Nat) (k : Nat) : WatchIndex :=
  W.set i ((watchersOf W i).eraseIdx k)

/-- The loop of `updateWatchedLits` over the remaining literals `rest` of the
clause at address `p`; `unassigned` is the flag of the same name.  The flag
`watched` of the source is local to one iteration and is the membership test. -/
def updateLoop (assgms : Assignment) (p : Nat) :
    List Int → Bool → WatchIndex → Int × WatchIndex
  | [], unassigned, W => if unassigned then (2, W) else (-1, W)
  | v :: rest, unassigned, W =>
    if valAt assgms (varOf v) * v > 0 then (3, W)
    else if valAt assgms (varOf v) = 0 then
      if (watchersOf W (varOf v)).contains p then updateLoop assgms p rest true W
      else (1, pushWatch W (varOf v) p)
    else updateLoop assgms p rest unassigned W

/-- The function `updateWatchedLits(assgms, cls)`, where `p` is the address of `cls`. -/
def updateWatchedLits (assgms : Assignment) (cls : Clause) (p : Nat) (W : WatchIndex) :
    Int × WatchIndex :=
  updateLoop assgms p cls false W

/-- The inner loop of `initWatchedLits` over the literals of the clause at address `p`. -/
def initClause (assgms : Assignment) (p : Nat) : List Int → Nat → WatchIndex → WatchIndex
  | [], _, W => W
  | v :: rest, cnt, W =>
    if valAt assgms (varOf v) * v ≠ -1 then
      if cnt + 1 = 2 then pushWatch W (varOf v) p
      else initClause assgms p rest (cnt + 1) (pushWatch W (varOf v) p)
    else initClause assgms p rest cnt W

/-- The outer loop of `initWatchedLits`; `p` is the address of the first clause of `clss`. -/
def initFrom (assgms : Assignment) : Formula → Nat → WatchIndex → WatchIndex
  | [], _, W => W
  | cls :: rest, p, W => initFrom assgms rest (p + 1) (initClause assgms p cls 0 W)

/-- The function `initWatchedLits(clss, assgms)`. -/
def initWatchedLits (clss : Formula) (assgms : Assignment) (W : WatchIndex) : WatchIndex :=
  initFrom assgms clss 0 W

/-- The function `AllSatisfied(assgms)`: no entry from index 1 on is `0`. -/
def AllSatisfied (assgms : Assignment) : Bool :=
  (assgms.drop 1).all (fun x => decide (x ≠ 0))

/-- The `for` loop of `unitPropagation`.  The enclosing `while (keep)` clears `keep`
at the top of its body and never sets it again, so the body runs exactly once. -/
def unitPropagation : Formula → Assignment → Bool × Assignment
  | [], assgms => (false, assgms)
  | cls :: rest, assgms =>
    if cls.length = 1 then
      if valAt assgms (varOf (cls.headD 0)) * cls.headD 0 < 0 then (true, assgms)
      else unitPropagation rest (assgms.set (varOf (cls.headD 0)) (signOf (cls.headD 0)))
    else unitPropagation rest assgms

/-- The loop of `pureLiteralElimination` for `i`, `i + 1`, ..., `numVariables`,
with `k` iterations left. -/
def pureLoop (pures : List Int) : Nat → Nat → Assignment → Assignment
  | 0, _, assgms => assgms
  | k + 1, i, assgms =>
    if pures.getD i 0 = 1 then pureLoop pures k (i + 1) (assgms.set i 1)
    else if pures.getD i 0 = -1 then pureLoop pures k (i + 1) (assgms.set i (-1))
    else pureLoop pures k (i + 1) assgms

/-- The function `pureLiteralElimination(clss, assgms)`; it reads the global `pures`. -/
def pureLiteralElimination (numVariables : Nat) (pures : List Int) (assgms : Assignment) :
    Assignment :=
  pureLoop pures numVariables 1 assgms

/-- The `while` loop of `chooseNext`. -/
def chooseLoop (numVariables : Nat) (assgms : Assignment) : Nat → Nat → Option Nat
  | 0, _ => none
  | fuel + 1, cur =>
    if valAt assgms cur ≠ 0 then
      chooseLoop numVariables assgms fuel
        (if cur + 1 > numVariables then cur + 1 - numVariables else cur + 1)
    else some cur

/-- The function `chooseNext(assgms, cur)`. -/
def chooseNext (fuel : Nat) (numVariables : Nat) (assgms : Assignment) (cur : Nat) :
    Option Nat :=
  chooseLoop numVariables assgms fuel (cur + 1)

/-- The update of `pures` that `parseClauses` performs for one literal `num`. -/
def trackLiteral (pures : List Int) (num : Int) : List Int :=
  if num > 0 then
    if pures.getD num.toNat 0 = 0 then pures.set num.toNat 1
    else if pures.getD num.toNat 0 = -1 then pures.set num.toNat 2
    else pures
  else if num < 0 then
    if pures.getD (-num).toNat 0 = 0 then pures.set (-num).toNat (-1)
    else if pures.getD (-num).toNat 0 = 1 then pures.set (-num).toNat 2
    else pures
  else pures

/-- The global `pures` after `parseClausesMain` has read the literals of `clss`.  An
entry of `pures` depends only on which signs of its variable have been read, so
reading the literals of the stored sets gives what reading the input tokens gave. -/
def parsePures (numVariables : Nat) (clss : Formula) : List Int :=
  clss.foldl (fun ps cls => cls.foldl trackLiteral ps) (List.replicate (numVariables + 1) 0)

/-- The call `units.insert(v)` on a `set<int>` kept in ascending order. -/
def insertUnit (v : Int) : List Int → List Int
  | [] => [v]
  | u :: us => if v < u then v :: u :: us else if v = u then u :: us else u :: insertUnit v us

/-- The first loop of `solve`: bind the targets; `false` when a target is out of range. -/
def applyTargets (numVariables : Nat) : List Int → Assignment → Bool × Assignment
  | [], assgms => (true, assgms)
  | target :: rest, assgms =>
    if varOf target > numVariables then (false, assgms)
    else applyTargets numVariables rest (assgms.set (varOf target) (signOf target))

/-- How the second loop of `solve` ends. -/
inductive Round where
  | conflict (W : WatchIndex)
  | done (W : WatchIndex) (units : List Int)
deriving DecidableEq, Repr

/-- The iteration of `solve` over `watched_lits[varOf target]`, with the iterator at
position `i`.  After `erase(it); --it;` the increment of the loop leaves the
iterator at the same position. -/
def scanWatched (clss : Formula) (assgms : Assignment) (target : Int) :
    Nat → Nat → WatchIndex → List Int → Option Round
  | 0, _, _, _ => none
  | fuel + 1, i, W, units =>
    if i < (watchersOf W (varOf target)).length then
      if (clss.getD ((watchersOf W (varOf target)).getD i 0) []).contains (-target) then
        if (updateWatchedLits assgms (clss.getD ((watchersOf W (varOf target)).getD i 0) [])
              ((watchersOf W (varOf target)).getD i 0) W).1 = 1 then
          scanWatched clss assgms target fuel i
            (eraseWatch (updateWatchedLits assgms
              (clss.getD ((watchersOf W (varOf target)).getD i 0) [])
              ((watchersOf W (varOf target)).getD i 0) W).2 (varOf target) i) units
        else if (updateWatchedLits assgms
              (clss.getD ((watchersOf W (varOf target)).getD i 0) [])
              ((watchersOf W (varOf target)).getD i 0) W).1 = 2 then
          match (clss.getD ((watchersOf W (varOf target)).getD i 0) []).find?
              (fun v => decide (valAt assgms (varOf v) = 0)) with
          | some v =>
            if units.contains (-v) then some (Round.conflict W)
            else scanWatched clss assgms target fuel (i + 1) W (insertUnit v units)
          | none => scanWatched clss assgms target fuel (i + 1) W units
        else if (updateWatchedLits assgms
              (clss.getD ((watchersOf W (varOf target)).getD i 0) [])
              ((watchersOf W (varOf target)).getD i 0) W).1 = -1 then
          some (Round.conflict W)
        else scanWatched clss assgms target fuel (i + 1) W units
      else scanWatched clss assgms target fuel (i + 1) W units
    else some (Round.done W units)

/-- The second loop of `solve` over the targets. -/
def propagate (clss : Formula) (assgms : Assignment) (fuel : Nat) :
    List Int → WatchIndex → List Int → Option Round
  | [], W, units => some (Round.done W units)
  | target :: rest, W, units =>
    match scanWatched clss assgms target fuel 0 W units with
    | some (Round.done W1 units1) => propagate clss assgms fuel rest W1 units1
    | other => other

/-- What a call of `solve` leaves behind: the returned boolean, the local copy of
`assgms` at the `return`, and the global `watched_lits`. -/
structure SolveResult where
  ans : Bool
  assgms : Assignment
  watched : WatchIndex
deriving DecidableEq, Repr

/-- The function `solve(clss, assgms, targets)`.  The two calls `chooseNext(assgms, 0)`
that fill `next1` and `next2` read the same vector and return the same value, so the
value is bound once; the second recursive call starts from the `watched_lits` that
the first one left. -/
def solve (numVariables : Nat) (clss : Formula) :
    Nat → Assignment → List Int → WatchIndex → Option SolveResult
  | 0, _, _, _ => none
  | fuel + 1, assgms, targets, W =>
    if (applyTargets numVariables targets assgms).1 = false then
      some ⟨false, (applyTargets numVariables targets assgms).2, W⟩
    else
      match propagate clss (applyTargets numVariables targets assgms).2 fuel targets W [] with
      | none => none
      | some (Round.conflict W1) => some ⟨false, (applyTargets numVariables targets assgms).2, W1⟩
      | some (Round.done W1 units) =>
        if AllSatisfied (applyTargets numVariables targets assgms).2 then
          some ⟨true, (applyTargets numVariables targets assgms).2, W1⟩
        else if units.length ≠ 0 then
          solve numVariables clss fuel (applyTargets numVariables targets assgms).2 units W1
        else
          match chooseNext fuel numVariables (applyTargets numVariables targets assgms).2 0 with
          | none => none
          | some c =>
            match solve numVariables clss fuel
                (applyTargets numVariables targets assgms).2 [(c : Int)] W1 with
            | none => none
            | some r1 =>
              if r1.ans then some r1
              else solve numVariables clss fuel
                (applyTargets numVariables targets assgms).2 [-(c : Int)] r1.watched

/-- The two lines that `main` prints. -/
inductive Verdict where
  | sat
  | unsat
deriving DecidableEq, Repr

/-- What `main` prints, and the assignment at the `return` that decided it. -/
structure Outcome where
  verdict : Verdict
  assgms : Assignment
deriving DecidableEq, Repr

/-- The function `main` after parsing: `clauses` and `numVariables` are given, `pures`
is what the parser has recorded for the literals of `clauses`. -/
def main (fuel : Nat) (numVariables : Nat) (clauses : Formula) : Option Outcome :=
  if (unitPropagation clauses (List.replicate (numVariables + 1) 0)).1 then
    some ⟨Verdict.unsat, (unitPropagation clauses (List.replicate (numVariables + 1) 0)).2⟩
  else
    match chooseNext fuel numVariables
        (pureLiteralElimination numVariables (parsePures numVariables clauses)
          (unitPropagation clauses (List.replicate (numVariables + 1) 0)).2) 0 with
    | none => none
    | some c =>
      match solve numVariables clauses fuel
          (pureLiteralElimination numVariables (parsePures numVariables clauses)
            (unitPropagation clauses (List.replicate (numVariables + 1) 0)).2)
          [(c : Int)]
          (initWatchedLits clauses
            (pureLiteralElimination numVariables (parsePures numVariables clauses)
              (unitPropagation clauses (List.replicate (numVariables + 1) 0)).2)
            (List.replicate (numVariables + 1) [])) with
      | none => none
      | some r1 =>
        if r1.ans then some ⟨Verdict.sat, r1.assgms⟩
        else
          match solve numVariables clauses fuel
              (pureLiteralElimination numVariables (parsePures numVariables clauses)
                (unitPropagation clauses (List.replicate (numVariables + 1) 0)).2)
              [-(c : Int)] r1.watched with
          | none => none
          | some r2 =>
            if r2.ans then some ⟨Verdict.sat, r2.assgms⟩
            else some ⟨Verdict.unsat, r2.assgms⟩

/-- A literal is true under an assignment: the test `assgms[var] * v > 0` of the source. -/
def litTrue (assgms : Assignment) (v : Int) : Prop := valAt assgms (varOf v) * v > 0

instance (assgms : Assignment) (v : Int) : Decidable (litTrue assgms v) := by
  unfold litTrue; infer_instance

/-- The variable of a literal is not decided: the test `assgms[var] == 0` of the source. -/
def litUnassigned (assgms : Assignment) (v : Int) : Prop := valAt assgms (varOf v) = 0

instance (assgms : Assignment) (v : Int) : Decidable (litUnassigned assgms v) := by
  unfold litUnassigned; infer_instance

/-- A clause is true under an assignment. -/
def clauseTrue (assgms : Assignment) (cls : Clause) : Prop := ∃ v ∈ cls, litTrue assgms v

instance (assgms : Assignment) (cls : Clause) : Decidable (clauseTrue assgms cls) := by
  unfold clauseTrue; infer_instance

/-- Every clause of the formula is true under the assignment. -/
def formulaTrue (assgms : Assignment) (clss : Formula) : Prop :=
  ∀ cls ∈ clss, clauseTrue assgms cls

instance (assgms : Assignment) (clss : Formula) : Decidable (formulaTrue assgms clss) := by
  unfold formulaTrue; infer_instance

/-- Every variable `1..numVariables` is bound to true or false. -/
def allBound (numVariables : Nat) (assgms : Assignment) : Prop :=
  ∀ i, 1 ≤ i → i ≤ numVariables → valAt assgms i = 1 ∨ valAt assgms i = -1

/-- The input contract of the core: literals are nonzero and name a variable in range. -/
def wellFormed (numVariables : Nat) (clss : Formula) : Prop :=
  ∀ cls ∈ clss, ∀ v ∈ cls, v ≠ 0 ∧ varOf v ≤ numVariables

instance (numVariables : Nat) (clss : Formula) : Decidable (wellFormed numVariables clss) := by
  unfold wellFormed; infer_instance

/-- The literals of a clause are listed in strictly ascending order. -/
def isAscending : List Int → Bool
  | [] => true
  | [_] => true
  | x :: y :: rest => decide (x < y) && isAscending (y :: rest)

/-- The literals of every clause are listed in strictly ascending order, as a
`set<int>` iterates them. -/
def ascending (clss : Formula) : Prop := ∀ cls ∈ clss, isAscending cls = true

instance (clss : Formula) : Decidable (ascending clss) := by
  unfold ascending; infer_instance

/-- Scenario A of the specification. -/
def scenarioA : Formula := [[1], [-1]]

/-- Scenario B of the specification. -/
def scenarioB : Formula := [[1, 2], [-1, 2]]

/-- Scenario C of the specification, every clause in ascending order. -/
def scenarioC : Formula := [[1, 2], [-2, -1], [-2, 1], [-1, 2]]

/-- Scenario D of the specification. -/
def scenarioD : Formula := [[1, 2, 3]]

/-- Two unit clauses and a binary clause that they falsify together. -/
def unitChain : Formula := [[2], [-3, -2], [3]]

/-- A formula that is true exactly when variables 1 and 2 are true, and whose
first clause holds both `2` and `-2`. -/
def withTautology : Formula := [[-2, -1, 2], [1, 3], [-3, 1], [-1, 2, 3], [-3, -1, 2]]

/-- One activation of `solve`: its nesting depth and what it received, namely the
copy `assgms`, the vector `targets`, and the global `watched_lits` at entry. -/
structure Call where
  depth : Nat
  assgms : Assignment
  targets : List Int
  watched : WatchIndex
deriving DecidableEq, Repr

/-- The activations of `solve` that are entered while `solve` runs on the given
arguments, the outermost first.  The control flow is that of `solve`; the second
branch of `||` is entered only when the first returned false. -/
def solveCalls (numVariables : Nat) (clss : Formula) :
    Nat → Nat → Assignment → List Int → WatchIndex → List Call
  | 0, d, assgms, targets, W => [⟨d, assgms, targets, W⟩]
  | fuel + 1, d, assgms, targets, W =>
    ⟨d, assgms, targets, W⟩ ::
      (if (applyTargets numVariables targets assgms).1 = false then []
      else
        match propagate clss (applyTargets numVariables targets assgms).2 fuel targets W [] with
        | none => []
        | some (Round.conflict _) => []
        | some (Round.done W1 units) =>
          if AllSatisfied (applyTargets numVariables targets assgms).2 then []
          else if units.length ≠ 0 then
            solveCalls numVariables clss fuel (d + 1)
              (applyTargets numVariables targets assgms).2 units W1
          else
            match chooseNext fuel numVariables (applyTargets numVariables targets assgms).2 0 with
            | none => []
            | some c =>
              solveCalls numVariables clss fuel (d + 1)
                  (applyTargets numVariables targets assgms).2 [(c : Int)] W1 ++
                (match solve numVariables clss fuel
                    (applyTargets numVariables targets assgms).2 [(c : Int)] W1 with
                | none => []
                | some r1 =>
                  if r1.ans then []
                  else solveCalls numVariables clss fuel (d + 1)
                    (applyTargets numVariables targets assgms).2 [-(c : Int)] r1.watched))

/-- The assignment `main` passes to the root calls of `solve`. -/
def rootAssignment (numVariables : Nat) (clauses : Formula) : Assignment :=
  pureLiteralElimination numVariables (parsePures numVariables clauses)
    (unitPropagation clauses (List.replicate (numVariables + 1) 0)).2

/-- The activations of `solve` that are entered while `main` runs. -/
def mainCalls (fuel : Nat) (numVariables : Nat) (clauses : Formula) : List Call :=
  if (unitPropagation clauses (List.replicate (numVariables + 1) 0)).1 then []
  else
    match chooseNext fuel numVariables (rootAssignment numVariables clauses) 0 with
    | none => []
    | some c =>
      solveCalls numVariables clauses fuel 0 (rootAssignment numVariables clauses) [(c : Int)]
          (initWatchedLits clauses (rootAssignment numVariables clauses)
            (List.replicate (numVariables + 1) [])) ++
        (match solve numVariables clauses fuel (rootAssignment numVariables clauses) [(c : Int)]
            (initWatchedLits clauses (rootAssignment numVariables clauses)
              (List.replicate (numVariables + 1) [])) with
        | none => []
        | some r1 =>
          if r1.ans then []
          else solveCalls numVariables clauses fuel 0 (rootAssignment numVariables clauses)
            [-(c : Int)] r1.watched)

/-- The sum of `f` over the entries of the watch index. -/
def sumOver (f : List Nat → Nat) : WatchIndex → Nat
  | [] => 0
  | ws :: W => f ws + sumOver f W

/-- The number of registrations of the clause at address `p`, over all variables. -/
def regCount (W : WatchIndex) (p : Nat) : Nat := sumOver (fun ws => ws.count p) W

/-- The number of registrations in the watch index. -/
def totalLen (W : WatchIndex) : Nat := sumOver List.length W

/-- Every registration of a clause is under the variable of one of its literals. -/
def ownVars (clss : Formula) (W : WatchIndex) : Prop :=
  ∀ x p, p ∈ watchersOf W x → ∃ v ∈ clss.getD p [], varOf v = x

/-- The number of variables in `1..numVariables` that are not decided. -/
def unassignedCount : Nat → Assignment → Nat
  | 0, _ => 0
  | n + 1, assgms => (if valAt assgms (n + 1) = 0 then 1 else 0) + unassignedCount n assgms

/-- A literal is false under an assignment. -/
def litFalse (assgms : Assignment) (v : Int) : Prop := valAt assgms (varOf v) * v < 0

instance (assgms : Assignment) (v : Int) : Decidable (litFalse assgms v) := by
  unfold litFalse; infer_instance

/-- The watch invariant of the specification at the entry of a call: every clause
that the assignment does not satisfy is registered under a variable that is not
decided, or has no unassigned literal. -/
def watchInvariant (clss : Formula) (assgms : Assignment) (W : WatchIndex) : Prop :=
  ∀ p, p < clss.length → ¬ clauseTrue assgms (clss.getD p []) →
    (∃ x, x < W.length ∧ (p ∈ watchersOf W x ∧ valAt assgms x = 0)) ∨
      (∀ v ∈ clss.getD p [], ¬ litUnassigned assgms v)

instance (clss : Formula) (assgms : Assignment) (W : WatchIndex) :
    Decidable (watchInvariant clss assgms W) := by
  unfold watchInvariant; infer_instance

/-- Two unit clauses, a clause they leave with one unassigned literal, and a clause
that makes variable 1 occur with both signs. -/
def unitsThenTernary : Formula := [[2], [3], [-3, -2, 1], [-1, 2]]

/-- The watch index that a finished round of the second loop leaves. -/
def Round.watched : Round → WatchIndex
  | Round.conflict W => W
  | Round.done W _ => W

/-- One move of a registration, as `solve` performs it on the answer 1 of
`updateWatchedLits`: the clause at position `i` of `watched_lits[x]` is registered
under the variable of one of its literals and its entry at position `i` is erased. -/
def rewatchStep (clss : Formula) (W W1 : WatchIndex) : Prop :=
  ∃ (x i : Nat) (v : Int), i < (watchersOf W x).length ∧
    v ∈ clss.getD ((watchersOf W x).getD i 0) [] ∧
    W1 = eraseWatch (pushWatch W (varOf v) ((watchersOf W x).getD i 0)) x i

/-- A pending unit is implied: it is an unassigned literal of a clause of the formula
whose other literals are all false. -/
def unitImplied (clss : Formula) (assgms : Assignment) (u : Int) : Prop :=
  ∃ cls ∈ clss, u ∈ cls ∧ litUnassigned assgms u ∧ ∀ v ∈ cls, v ≠ u → litFalse assgms v

/-- Three implications in a cycle: every clause has two literals and every variable
occurs with both signs. -/
def implicationCycle : Formula := [[-1, 2], [-2, 3], [-3, 1]]

/-! ## Auxiliary lemmas -/

theorem updateLoop_three (assgms : Assignment) (p : Nat) (W : WatchIndex) (v : Int)
    (post : List Int) (hv : litTrue assgms v) :
    ∀ (pre : List Int) (b : Bool),
      (∀ u ∈ pre, litUnassigned assgms u → p ∈ watchersOf W (varOf u)) →
      updateLoop assgms p (pre ++ v :: post) b W = (3, W) := by
  intro pre
  induction pre with
  | nil =>
    intro b _
    have hv' : valAt assgms (varOf v) * v > 0 := hv
    simp [updateLoop, hv']
  | cons u pre ih =>
    intro b h
    have hrest : ∀ w ∈ pre, litUnassigned assgms w → p ∈ watchersOf W (varOf w) :=
      fun w hw => h w (List.mem_cons_of_mem _ hw)
    simp only [List.cons_append, updateLoop]
    by_cases h1 : valAt assgms (varOf u) * u > 0
    · simp [h1]
    · by_cases h2 : valAt assgms (varOf u) = 0
      · have hreg : p ∈ watchersOf W (varOf u) := h u (List.mem_cons_self _ _) h2
        simp [h1, h2, hreg, ih true hrest]
      · simp [h1, h2, ih b hrest]

theorem updateLoop_minus_one (assgms : Assignment) (p : Nat) (W : WatchIndex) :
    ∀ (l : List Int) (b : Bool),
      (updateLoop assgms p l b W).1 = -1 ↔
        (b = false ∧ ∀ v ∈ l, ¬ litUnassigned assgms v ∧ ¬ litTrue assgms v) := by
  intro l
  induction l with
  | nil =>
    intro b
    cases b <;> simp [updateLoop]
  | cons u l ih =>
    intro b
    simp only [updateLoop, litTrue, litUnassigned, List.mem_cons, forall_eq_or_imp]
    by_cases h1 : valAt assgms (varOf u) * u > 0
    · simp [h1]
    · by_cases h2 : valAt assgms (varOf u) = 0
      · by_cases hreg : p ∈ watchersOf W (varOf u)
        · simp [h1, h2, hreg, ih true]
        · simp [h1, h2, hreg]
      · have := ih b
        simp only [litTrue, litUnassigned] at this
        simp [h1, h2, this]

theorem updateLoop_two (assgms : Assignment) (p : Nat) (W : WatchIndex) :
    ∀ (l : List Int) (b : Bool),
      (∀ v ∈ l, ¬ litTrue assgms v) →
      (∀ v ∈ l, litUnassigned assgms v → p ∈ watchersOf W (varOf v)) →
      (b = true ∨ ∃ u ∈ l, litUnassigned assgms u) →
      updateLoop assgms p l b W = (2, W) := by
  intro l
  induction l with
  | nil =>
    intro b _ _ hb
    rcases hb with hb | ⟨u, hu, _⟩
    · simp [updateLoop, hb]
    · cases hu
  | cons u l ih =>
    intro b hT hR hb
    have hT' : ∀ v ∈ l, ¬ litTrue assgms v := fun v hv => hT v (List.mem_cons_of_mem _ hv)
    have hR' : ∀ v ∈ l, litUnassigned assgms v → p ∈ watchersOf W (varOf v) :=
      fun v hv => hR v (List.mem_cons_of_mem _ hv)
    have h1 : ¬ valAt assgms (varOf u) * u > 0 := hT u (List.mem_cons_self _ _)
    simp only [updateLoop]
    by_cases h2 : valAt assgms (varOf u) = 0
    · have hreg : p ∈ watchersOf W (varOf u) := hR u (List.mem_cons_self _ _) h2
      simp [h1, h2, hreg, ih true hT' hR' (Or.inl rfl)]
    · have hb' : b = true ∨ ∃ w ∈ l, litUnassigned assgms w := by
        rcases hb with hb | ⟨w, hw, hwU⟩
        · exact Or.inl hb
        · rcases List.mem_cons.mp hw with rfl | hw
          · exact absurd hwU h2
          · exact Or.inr ⟨w, hw, hwU⟩
      simp [h1, h2, ih b hT' hR' hb']

theorem valAt_set (a : Assignment) (i j : Nat) (x : Int) :
    valAt (a.set i x) j = if i = j ∧ i < a.length then x else valAt a j := by
  unfold valAt
  rw [List.getD_eq_getElem?_getD, List.getD_eq_getElem?_getD, List.getElem?_set]
  by_cases hij : i = j
  · subst hij
    by_cases hlt : i < a.length
    · simp [hlt]
    · have hnone : a[i]? = none := List.getElem?_eq_none (Nat.le_of_not_lt hlt)
      simp [hlt, hnone]
  · simp [hij]

theorem varOf_neg (l : Int) : varOf (-l) = varOf l := by
  unfold varOf
  rcases lt_trichotomy l 0 with h | h | h
  · have h1 : ¬ l > 0 := by omega
    have h2 : -l > 0 := by omega
    simp [h1, h2]
  · subst h; simp
  · have h1 : l > 0 := h
    have h2 : ¬ -l > 0 := by omega
    simp [h1, h2]

theorem signOf_mul_neg (l : Int) (hl : l ≠ 0) : signOf l * (-l) < 0 := by
  unfold signOf
  by_cases h : l > 0
  · simp [h]
  · simp only [h, if_false]; omega

theorem signOf_mul_self (l : Int) (hl : l ≠ 0) : signOf l * l > 0 := by
  unfold signOf
  by_cases h : l > 0
  · simp [h]
  · simp only [h, if_false]; omega

theorem varOf_eq_cases (l m : Int) (h : varOf l = varOf m) : l = m ∨ l = -m := by
  unfold varOf at h
  by_cases h1 : l > 0 <;> by_cases h2 : m > 0 <;> simp only [h1, h2, if_true, if_false] at h <;> omega

theorem unitPropagation_conflict_iff (n : Nat) :
    ∀ (clss : Formula) (a : Assignment), a.length = n + 1 → wellFormed n clss →
      ((unitPropagation clss a).1 = true ↔
        ∃ l, [l] ∈ clss ∧ (valAt a (varOf l) * l < 0 ∨ [-l] ∈ clss)) := by
  intro clss
  induction clss with
  | nil => intro a _ _; simp [unitPropagation]
  | cons cls rest ih =>
    intro a ha hwf
    have hwf' : wellFormed n rest := fun c hc => hwf c (List.mem_cons_of_mem _ hc)
    unfold unitPropagation
    by_cases hlen : cls.length = 1
    · obtain ⟨l, rfl⟩ := List.length_eq_one.mp hlen
      have hl := hwf [l] (List.mem_cons_self _ _) l (List.mem_singleton_self l)
      have hl0 : l ≠ 0 := hl.1
      have hlt : varOf l < a.length := by rw [ha]; exact Nat.lt_succ_of_le hl.2
      simp only [List.length_singleton, if_true, List.headD_cons]
      by_cases hc : valAt a (varOf l) * l < 0
      · simp only [hc, if_true, true_iff]
        exact ⟨l, List.mem_cons_self _ _, Or.inl hc⟩
      · simp only [hc, if_false]
        rw [ih _ (by rw [List.length_set]; exact ha) hwf']
        constructor
        · rintro ⟨m, hm, hm2⟩
          rcases hm2 with hm2 | hm2
          · rw [valAt_set] at hm2
            by_cases hv : varOf l = varOf m
            · simp only [hv, true_and] at hm2
              rw [← hv] at hm2
              simp only [hlt, if_true] at hm2
              rcases varOf_eq_cases l m hv with h | h
              · subst h
                have := signOf_mul_self l hl0
                omega
              · refine ⟨l, List.mem_cons_self _ _, Or.inr ?_⟩
                have : m = -l := by omega
                subst this
                exact List.mem_cons_of_mem _ hm
            · simp only [hv, false_and, if_false] at hm2
              exact ⟨m, List.mem_cons_of_mem _ hm, Or.inl hm2⟩
          · exact ⟨m, List.mem_cons_of_mem _ hm, Or.inr (List.mem_cons_of_mem _ hm2)⟩
        · rintro ⟨m, hm, hm2⟩
          have key : valAt (a.set (varOf l) (signOf l)) (varOf (-l)) * (-l) < 0 := by
            rw [valAt_set, varOf_neg]
            simp only [true_and, hlt, if_true]
            exact signOf_mul_neg l hl0
          rcases List.mem_cons.mp hm with hm | hm
          · have hml : m = l := by simpa using hm
            subst hml
            rcases hm2 with hm2 | hm2
            · exact absurd hm2 hc
            · rcases List.mem_cons.mp hm2 with h | h
              · have : -m = m := by simpa using h
                omega
              · exact ⟨-m, h, Or.inl key⟩
          · rcases hm2 with hm2 | hm2
            · by_cases hv : varOf l = varOf m
              · rcases varOf_eq_cases l m hv with h | h
                · subst h; exact absurd hm2 hc
                · have : m = -l := by omega
                  subst this
                  exact ⟨-l, hm, Or.inl key⟩
              · refine ⟨m, hm, Or.inl ?_⟩
                rw [valAt_set]
                simp only [hv, false_and, if_false]
                exact hm2
            · rcases List.mem_cons.mp hm2 with h | h
              · have hml : -m = l := by simpa using h
                have : m = -l := by omega
                subst this
                exact ⟨-l, hm, Or.inl key⟩
              · exact ⟨m, hm, Or.inr h⟩
    · simp only [hlen, if_false]
      rw [ih a ha hwf']
      constructor
      · rintro ⟨m, hm, hm2⟩
        rcases hm2 with hm2 | hm2
        · exact ⟨m, List.mem_cons_of_mem _ hm, Or.inl hm2⟩
        · exact ⟨m, List.mem_cons_of_mem _ hm, Or.inr (List.mem_cons_of_mem _ hm2)⟩
      · rintro ⟨m, hm, hm2⟩
        have hne : ∀ x : Int, [x] ≠ cls := by
          intro x hx; apply hlen; rw [← hx]; rfl
        rcases List.mem_cons.mp hm with hm | hm
        · exact absurd hm (hne m)
        · rcases hm2 with hm2 | hm2
          · exact ⟨m, hm, Or.inl hm2⟩
          · rcases List.mem_cons.mp hm2 with h | h
            · exact absurd h (hne (-m))
            · exact ⟨m, hm, Or.inr h⟩

theorem valAt_replicate_zero (n i : Nat) : valAt (List.replicate n 0) i = 0 := by
  unfold valAt
  rw [List.getD_eq_getElem?_getD, List.getElem?_replicate]
  by_cases h : i < n <;> simp [h]

theorem chooseLoop_all_assigned (n : Nat) (a : Assignment)
    (hall : ∀ i, 1 ≤ i → i ≤ n → valAt a i ≠ 0) :
    ∀ (fuel cur : Nat), 1 ≤ cur → cur ≤ n → chooseLoop n a fuel cur = none := by
  intro fuel
  induction fuel with
  | zero => intro cur _ _; rfl
  | succ fuel ih =>
    intro cur h1 h2
    unfold chooseLoop
    simp only [hall cur h1 h2, ne_eq, not_false_eq_true, if_true]
    by_cases h : cur + 1 > n
    · simp only [h, if_true]
      exact ih _ (by omega) (by omega)
    · simp only [h, if_false]
      exact ih _ (by omega) (by omega)

theorem chooseLoop_first (n : Nat) (a : Assignment) (k : Nat) (hk : k + 1 ≤ n)
    (hlow : ∀ i, 1 ≤ i → i ≤ k → valAt a i ≠ 0) (hzero : valAt a (k + 1) = 0) :
    ∀ (fuel cur : Nat), 1 ≤ cur → cur ≤ k + 1 → k + 2 ≤ fuel + cur →
      chooseLoop n a fuel cur = some (k + 1) := by
  intro fuel
  induction fuel with
  | zero => intro cur _ _ _; omega
  | succ fuel ih =>
    intro cur h1 h2 h3
    unfold chooseLoop
    by_cases hc : cur = k + 1
    · subst hc
      simp [hzero]
    · have hne : valAt a cur ≠ 0 := hlow cur h1 (by omega)
      have hwrap : ¬ cur + 1 > n := by omega
      simp only [hne, ne_eq, not_false_eq_true, if_true, hwrap, if_false]
      exact ih _ (by omega) (by omega) (by omega)

theorem AllSatisfied_iff (a : Assignment) :
    AllSatisfied a = true ↔ ∀ i, 1 ≤ i → i < a.length → valAt a i ≠ 0 := by
  unfold AllSatisfied valAt
  cases a with
  | nil => simp
  | cons x xs =>
    simp only [List.drop_succ_cons, List.drop_zero, List.all_eq_true, decide_eq_true_eq,
      List.length_cons]
    constructor
    · intro h i h1 h2
      obtain ⟨j, rfl⟩ : ∃ j, i = j + 1 := ⟨i - 1, by omega⟩
      have hj : j < xs.length := by omega
      simp only [List.getD_cons_succ]
      rw [List.getD_eq_getElem _ _ hj]
      exact h _ (List.getElem_mem _)
    · intro h y hy
      obtain ⟨j, hj, rfl⟩ := List.getElem_of_mem hy
      have := h (j + 1) (by omega) (by omega)
      simp only [List.getD_cons_succ] at this
      rw [List.getD_eq_getElem _ _ hj] at this
      exact this

theorem pureLoop_unseen (pures : List Int) (hp : ∀ i, pures.getD i 0 = 0) :
    ∀ (k i : Nat) (a : Assignment), pureLoop pures k i a = a := by
  intro k
  induction k with
  | zero => intro i a; rfl
  | succ k ih =>
    intro i a
    unfold pureLoop
    rw [if_neg (by rw [hp i]; decide), if_neg (by rw [hp i]; decide)]
    exact ih _ _

theorem varOf_natCast (k : Nat) : varOf (k : Int) = k := by
  unfold varOf
  by_cases h : (k : Int) > 0
  · simp [h]
  · have : k = 0 := by omega
    subst this; simp

theorem watchersOf_replicate (n i : Nat) : watchersOf (List.replicate n []) i = [] := by
  unfold watchersOf
  rw [List.getD_eq_getElem?_getD, List.getElem?_replicate]
  by_cases h : i < n <;> simp [h]

/-- On the empty formula with an empty watch index, `solve` called on variable `k + 1`
with the variables `1..k` bound binds the remaining variables one after the other. -/
theorem solve_empty_formula (n : Nat) :
    ∀ (d k fuel : Nat) (a : Assignment), k + 1 + d = n → 2 * d + k + 3 ≤ fuel →
      a.length = n + 1 →
      (∀ i, 1 ≤ i → i ≤ k → valAt a i = 1 ∨ valAt a i = -1) →
      (∀ i, k < i → valAt a i = 0) →
      ∃ a1, solve n [] fuel a [((k + 1 : Nat) : Int)] (List.replicate (n + 1) []) =
          some ⟨true, a1, List.replicate (n + 1) []⟩ ∧ allBound n a1 := by
  intro d
  induction d with
  | zero =>
    intro k fuel a hk hfuel hlen hlow hhigh
    obtain ⟨f, rfl⟩ : ∃ f, fuel = f + 1 := ⟨fuel - 1, by omega⟩
    obtain ⟨g, rfl⟩ : ∃ g, f = g + 1 := ⟨f - 1, by omega⟩
    have hvar : ¬ k + 1 > n := by omega
    have hsign : signOf ((k + 1 : Nat) : Int) = 1 := by unfold signOf; simp
    have happ : applyTargets n [((k + 1 : Nat) : Int)] a = (true, a.set (k + 1) 1) := by
      simp only [applyTargets, varOf_natCast, hvar, if_false, hsign]
    have hbound : allBound n (a.set (k + 1) 1) := by
      intro i h1 h2
      rw [valAt_set]
      by_cases hi : k + 1 = i
      · subst hi
        have hin : k + 1 < a.length := by omega
        simp [hin]
      · simp only [hi, false_and, if_false]
        exact hlow i h1 (by omega)
    have hall : AllSatisfied (a.set (k + 1) 1) = true := by
      rw [AllSatisfied_iff]
      intro i h1 h2
      rw [List.length_set, hlen] at h2
      rcases hbound i h1 (by omega) with h | h <;> rw [h] <;> decide
    refine ⟨a.set (k + 1) 1, ?_, hbound⟩
    simp only [solve, happ, propagate, scanWatched, varOf_natCast, watchersOf_replicate,
      List.length_nil, lt_self_iff_false, if_false, hall, if_true]
    simp
  | succ d ih =>
    intro k fuel a hk hfuel hlen hlow hhigh
    obtain ⟨f, rfl⟩ : ∃ f, fuel = f + 1 := ⟨fuel - 1, by omega⟩
    obtain ⟨g, rfl⟩ : ∃ g, f = g + 1 := ⟨f - 1, by omega⟩
    have hvar : ¬ k + 1 > n := by omega
    have hsign : signOf ((k + 1 : Nat) : Int) = 1 := by unfold signOf; simp
    have happ : applyTargets n [((k + 1 : Nat) : Int)] a = (true, a.set (k + 1) 1) := by
      simp only [applyTargets, varOf_natCast, hvar, if_false, hsign]
    have hlen1 : (a.set (k + 1) 1).length = n + 1 := by rw [List.length_set]; exact hlen
    have hlow1 : ∀ i, 1 ≤ i → i ≤ k + 1 →
        valAt (a.set (k + 1) 1) i = 1 ∨ valAt (a.set (k + 1) 1) i = -1 := by
      intro i h1 h2
      rw [valAt_set]
      by_cases hi : k + 1 = i
      · subst hi
        have hin : k + 1 < a.length := by omega
        simp [hin]
      · simp only [hi, false_and, if_false]
        exact hlow i h1 (by omega)
    have hhigh1 : ∀ i, k + 1 < i → valAt (a.set (k + 1) 1) i = 0 := by
      intro i h1
      rw [valAt_set]
      have hi : ¬ k + 1 = i := by omega
      simp only [hi, false_and, if_false]
      exact hhigh i (by omega)
    have hnot : ¬ AllSatisfied (a.set (k + 1) 1) = true := by
      rw [AllSatisfied_iff]
      intro h
      exact h (k + 2) (by omega) (by rw [hlen1]; omega) (hhigh1 (k + 2) (by omega))
    have hchoose : chooseNext (g + 1) n (a.set (k + 1) 1) 0 = some (k + 1 + 1) := by
      unfold chooseNext
      apply chooseLoop_first n _ (k + 1) (by omega)
      · intro i h1 h2
        rcases hlow1 i h1 h2 with h | h <;> rw [h] <;> decide
      · exact hhigh1 _ (by omega)
      · omega
      · omega
      · omega
    obtain ⟨a1, hsolve, hb⟩ := ih (k + 1) (g + 1) (a.set (k + 1) 1) (by omega) (by omega)
      hlen1 hlow1 hhigh1
    refine ⟨a1, ?_, hb⟩
    have hsolve1 : solve n [] (g + 1) (a.set (k + 1) 1) [((k + 1 + 1 : Nat) : Int)]
        (List.replicate (n + 1) []) = some ⟨true, a1, List.replicate (n + 1) []⟩ := hsolve
    rw [solve]
    simp only [happ, propagate, scanWatched, varOf_natCast, watchersOf_replicate,
      List.length_nil, lt_self_iff_false, if_false, hnot, hchoose, hsolve1, if_true]
    simp

theorem chooseLoop_mono (n : Nat) (a : Assignment) :
    ∀ (fuel cur c : Nat), chooseLoop n a fuel cur = some c →
      chooseLoop n a (fuel + 1) cur = some c := by
  intro fuel
  induction fuel with
  | zero => intro cur c h; simp [chooseLoop] at h
  | succ fuel ih =>
    intro cur c h
    rw [chooseLoop] at h ⊢
    by_cases h1 : valAt a cur ≠ 0
    · rw [if_pos h1] at h ⊢
      exact ih _ _ h
    · rw [if_neg h1] at h ⊢
      exact h

theorem scanWatched_mono (clss : Formula) (a : Assignment) (target : Int) :
    ∀ (fuel i : Nat) (W : WatchIndex) (units : List Int) (r : Round),
      scanWatched clss a target fuel i W units = some r →
      scanWatched clss a target (fuel + 1) i W units = some r := by
  intro fuel
  induction fuel with
  | zero => intro i W units r h; simp [scanWatched] at h
  | succ fuel ih =>
    intro i W units r h
    rw [scanWatched] at h ⊢
    split_ifs at h ⊢ with h1 h2 h3 h4 h5
    · exact ih _ _ _ _ h
    · split at h
      · split_ifs at h ⊢ with h6
        · exact h
        · exact ih _ _ _ _ h
      · exact ih _ _ _ _ h
    · exact h
    · exact ih _ _ _ _ h
    · exact ih _ _ _ _ h
    · exact h

theorem propagate_mono (clss : Formula) (a : Assignment) (fuel : Nat) :
    ∀ (targets : List Int) (W : WatchIndex) (units : List Int) (r : Round),
      propagate clss a fuel targets W units = some r →
      propagate clss a (fuel + 1) targets W units = some r := by
  intro targets
  induction targets with
  | nil => intro W units r h; simpa [propagate] using h
  | cons t rest ih =>
    intro W units r h
    rw [propagate] at h ⊢
    cases hs : scanWatched clss a t fuel 0 W units with
    | none => rw [hs] at h; simp at h
    | some s =>
      rw [hs] at h
      rw [scanWatched_mono clss a t fuel 0 W units s hs]
      cases s with
      | conflict W1 => exact h
      | done W1 u1 => exact ih _ _ _ h

theorem chooseNext_mono (n : Nat) (a : Assignment) (fuel cur c : Nat)
    (h : chooseNext fuel n a cur = some c) : chooseNext (fuel + 1) n a cur = some c :=
  chooseLoop_mono n a fuel (cur + 1) c h

theorem solve_mono (n : Nat) (clss : Formula) :
    ∀ (fuel : Nat) (a : Assignment) (targets : List Int) (W : WatchIndex) (r : SolveResult),
      solve n clss fuel a targets W = some r → solve n clss (fuel + 1) a targets W = some r := by
  intro fuel
  induction fuel with
  | zero => intro a targets W r h; simp [solve] at h
  | succ fuel ih =>
    intro a targets W r h
    rw [solve] at h ⊢
    by_cases h1 : (applyTargets n targets a).1 = false
    · rw [if_pos h1] at h ⊢
      exact h
    · rw [if_neg h1] at h ⊢
      cases hp : propagate clss (applyTargets n targets a).2 fuel targets W [] with
      | none => rw [hp] at h; simp at h
      | some s =>
        rw [hp] at h
        rw [propagate_mono clss _ fuel targets W [] s hp]
        cases s with
        | conflict W1 => exact h
        | done W1 units =>
          simp only at h ⊢
          by_cases h2 : AllSatisfied (applyTargets n targets a).2 = true
          · rw [if_pos h2] at h ⊢
            exact h
          by_cases h3 : units.length ≠ 0
          · rw [if_neg h2, if_pos h3] at h ⊢
            exact ih _ _ _ _ h
          · rw [if_neg h2, if_neg h3] at h ⊢
            cases hc : chooseNext fuel n (applyTargets n targets a).2 0 with
            | none => rw [hc] at h; simp at h
            | some c =>
              rw [hc] at h
              rw [chooseNext_mono n _ fuel 0 c hc]
              simp only at h ⊢
              cases h1s : solve n clss fuel (applyTargets n targets a).2 [(c : Int)] W1 with
              | none => rw [h1s] at h; simp at h
              | some r1 =>
                rw [h1s] at h
                rw [ih _ _ _ _ h1s]
                simp only at h ⊢
                by_cases h4 : r1.ans = true
                · rw [if_pos h4] at h ⊢
                  exact h
                · rw [if_neg h4] at h ⊢
                  exact ih _ _ _ _ h

theorem solve_mono_add (n : Nat) (clss : Formula) (fuel : Nat) (a : Assignment)
    (targets : List Int) (W : WatchIndex) (r : SolveResult)
    (h : solve n clss fuel a targets W = some r) :
    ∀ k, solve n clss (fuel + k) a targets W = some r := by
  intro k
  induction k with
  | zero => exact h
  | succ k ih => exact solve_mono n clss _ a targets W r ih

theorem chooseNext_mono_add (n : Nat) (a : Assignment) (fuel cur c : Nat)
    (h : chooseNext fuel n a cur = some c) : ∀ k, chooseNext (fuel + k) n a cur = some c := by
  intro k
  induction k with
  | zero => exact h
  | succ k ih => exact chooseNext_mono n a _ cur c ih

/-- More fuel never changes what `main` prints. -/
theorem main_mono_add (n : Nat) (clss : Formula) (fuel : Nat) (o : Outcome)
    (h : main fuel n clss = some o) : ∀ k, main (fuel + k) n clss = some o := by
  intro k
  unfold main at h ⊢
  split_ifs at h ⊢ with h1
  · exact h
  · cases hc : chooseNext fuel n (pureLiteralElimination n (parsePures n clss)
        (unitPropagation clss (List.replicate (n + 1) 0)).2) 0 with
    | none => rw [hc] at h; simp at h
    | some c =>
      rw [hc] at h
      rw [chooseNext_mono_add n _ fuel 0 c hc k]
      simp only at h ⊢
      cases h1s : solve n clss fuel (pureLiteralElimination n (parsePures n clss)
          (unitPropagation clss (List.replicate (n + 1) 0)).2) [(c : Int)]
          (initWatchedLits clss (pureLiteralElimination n (parsePures n clss)
            (unitPropagation clss (List.replicate (n + 1) 0)).2)
            (List.replicate (n + 1) [])) with
      | none => rw [h1s] at h; simp at h
      | some r1 =>
        rw [h1s] at h
        rw [solve_mono_add n clss fuel _ _ _ r1 h1s k]
        simp only at h ⊢
        split_ifs at h ⊢ with h2
        · exact h
        · cases h2s : solve n clss fuel (pureLiteralElimination n (parsePures n clss)
              (unitPropagation clss (List.replicate (n + 1) 0)).2) [-(c : Int)] r1.watched with
          | none => rw [h2s] at h; simp at h
          | some r2 =>
            rw [h2s] at h
            rw [solve_mono_add n clss fuel _ _ _ r2 h2s k]
            exact h

theorem getD_set_int (a : List Int) (i j : Nat) (x : Int) :
    (a.set i x).getD j 0 = if i = j ∧ i < a.length then x else a.getD j 0 :=
  valAt_set a i j x

theorem list_ext_valAt (a b : Assignment) (hlen : a.length = b.length)
    (h : ∀ j, valAt a j = valAt b j) : a = b := by
  apply List.ext_getElem hlen
  intro j h1 h2
  have := h j
  unfold valAt at this
  rw [List.getD_eq_getElem _ _ h1, List.getD_eq_getElem _ _ h2] at this
  exact this

theorem pureLoop_length (pures : List Int) :
    ∀ (k i : Nat) (a : Assignment), (pureLoop pures k i a).length = a.length := by
  intro k
  induction k with
  | zero => intro i a; rfl
  | succ k ih =>
    intro i a
    unfold pureLoop
    split_ifs <;> simp [ih]

theorem pureLoop_valAt (pures : List Int) :
    ∀ (k i : Nat) (a : Assignment) (j : Nat),
      valAt (pureLoop pures k i a) j =
        if i ≤ j ∧ j < i + k ∧ j < a.length ∧ (pures.getD j 0 = 1 ∨ pures.getD j 0 = -1)
        then pures.getD j 0 else valAt a j := by
  intro k
  induction k with
  | zero =>
    intro i a j
    have : ¬ (i ≤ j ∧ j < i + 0 ∧ j < a.length ∧ (pures.getD j 0 = 1 ∨ pures.getD j 0 = -1)) := by
      omega
    rw [if_neg this]
    rfl
  | succ k ih =>
    intro i a j
    unfold pureLoop
    by_cases h1 : pures.getD i 0 = 1
    · rw [if_pos h1, ih, valAt_set, List.length_set]
      by_cases hij : i = j
      · subst hij
        by_cases hlt : i < a.length
        · have c1 : ¬ (i + 1 ≤ i ∧ i < i + 1 + k ∧ i < a.length ∧
              (pures.getD i 0 = 1 ∨ pures.getD i 0 = -1)) := by omega
          have c2 : i ≤ i ∧ i < i + (k + 1) ∧ i < a.length ∧
              (pures.getD i 0 = 1 ∨ pures.getD i 0 = -1) := ⟨by omega, by omega, hlt, Or.inl h1⟩
          rw [if_neg c1, if_pos c2, if_pos ⟨rfl, hlt⟩, h1]
        · have c1 : ¬ (i + 1 ≤ i ∧ i < i + 1 + k ∧ i < a.length ∧
              (pures.getD i 0 = 1 ∨ pures.getD i 0 = -1)) := by omega
          have c2 : ¬ (i ≤ i ∧ i < i + (k + 1) ∧ i < a.length ∧
              (pures.getD i 0 = 1 ∨ pures.getD i 0 = -1)) := by omega
          have c3 : ¬ (i = i ∧ i < a.length) := by omega
          rw [if_neg c1, if_neg c2, if_neg c3]
      · have c3 : ¬ (i = j ∧ i < a.length) := by omega
        rw [if_neg c3]
        by_cases hc : i + 1 ≤ j ∧ j < i + 1 + k ∧ j < a.length ∧
            (pures.getD j 0 = 1 ∨ pures.getD j 0 = -1)
        · rw [if_pos hc, if_pos ⟨by omega, by omega, hc.2.2.1, hc.2.2.2⟩]
        · rw [if_neg hc, if_neg]
          intro hc2
          exact hc ⟨by omega, by omega, hc2.2.2.1, hc2.2.2.2⟩
    · rw [if_neg h1]
      by_cases h2 : pures.getD i 0 = -1
      · rw [if_pos h2, ih, valAt_set, List.length_set]
        by_cases hij : i = j
        · subst hij
          by_cases hlt : i < a.length
          · have c1 : ¬ (i + 1 ≤ i ∧ i < i + 1 + k ∧ i < a.length ∧
                (pures.getD i 0 = 1 ∨ pures.getD i 0 = -1)) := by omega
            have c2 : i ≤ i ∧ i < i + (k + 1) ∧ i < a.length ∧
                (pures.getD i 0 = 1 ∨ pures.getD i 0 = -1) :=
              ⟨by omega, by omega, hlt, Or.inr h2⟩
            rw [if_neg c1, if_pos c2, if_pos ⟨rfl, hlt⟩, h2]
          · have c1 : ¬ (i + 1 ≤ i ∧ i < i + 1 + k ∧ i < a.length ∧
                (pures.getD i 0 = 1 ∨ pures.getD i 0 = -1)) := by omega
            have c2 : ¬ (i ≤ i ∧ i < i + (k + 1) ∧ i < a.length ∧
                (pures.getD i 0 = 1 ∨ pures.getD i 0 = -1)) := by omega
            have c3 : ¬ (i = i ∧ i < a.length) := by omega
            rw [if_neg c1, if_neg c2, if_neg c3]
        · have c3 : ¬ (i = j ∧ i < a.length) := by omega
          rw [if_neg c3]
          by_cases hc : i + 1 ≤ j ∧ j < i + 1 + k ∧ j < a.length ∧
              (pures.getD j 0 = 1 ∨ pures.getD j 0 = -1)
          · rw [if_pos hc, if_pos ⟨by omega, by omega, hc.2.2.1, hc.2.2.2⟩]
          · rw [if_neg hc, if_neg]
            intro hc2
            exact hc ⟨by omega, by omega, hc2.2.2.1, hc2.2.2.2⟩
      · rw [if_neg h2, ih]
        by_cases hc : i + 1 ≤ j ∧ j < i + 1 + k ∧ j < a.length ∧
            (pures.getD j 0 = 1 ∨ pures.getD j 0 = -1)
        · rw [if_pos hc, if_pos ⟨by omega, by omega, hc.2.2.1, hc.2.2.2⟩]
        · rw [if_neg hc, if_neg]
          intro hc2
          have hne : i ≠ j := by
            intro hij
            subst hij
            rcases hc2.2.2.2 with h | h
            · exact h1 h
            · exact h2 h
          exact hc ⟨by omega, by omega, hc2.2.2.1, hc2.2.2.2⟩

theorem pureLoop_idem (pures : List Int) (k i : Nat) (a : Assignment) :
    pureLoop pures k i (pureLoop pures k i a) = pureLoop pures k i a := by
  apply list_ext_valAt
  · rw [pureLoop_length]
  · intro j
    rw [pureLoop_valAt pures k i (pureLoop pures k i a) j, pureLoop_length, pureLoop_valAt]
    split_ifs <;> rfl

theorem toNat_eq_varOf_pos (v : Int) (h : v > 0) : v.toNat = varOf v := by
  unfold varOf; rw [if_pos h]

theorem toNat_eq_varOf_neg (v : Int) (h : v < 0) : (-v).toNat = varOf v := by
  unfold varOf
  have : ¬ v > 0 := by omega
  rw [if_neg this]

theorem varOf_pos_of_ne_zero (v : Int) (h : v ≠ 0) : 1 ≤ varOf v := by
  unfold varOf
  by_cases hv : v > 0
  · rw [if_pos hv]; omega
  · rw [if_neg hv]; omega

theorem trackLiteral_length (ps : List Int) (v : Int) :
    (trackLiteral ps v).length = ps.length := by
  unfold trackLiteral
  split_ifs <;> simp

/-- Every entry of the polarity tracker is one of the four marks. -/
theorem trackLiteral_marks_ok (ps : List Int) (v : Int)
    (hok : ∀ x, ps.getD x 0 = 0 ∨ ps.getD x 0 = 1 ∨ ps.getD x 0 = -1 ∨ ps.getD x 0 = 2) :
    ∀ x, (trackLiteral ps v).getD x 0 = 0 ∨ (trackLiteral ps v).getD x 0 = 1 ∨
      (trackLiteral ps v).getD x 0 = -1 ∨ (trackLiteral ps v).getD x 0 = 2 := by
  intro x
  unfold trackLiteral
  split_ifs <;> first
    | exact hok x
    | (rw [getD_set_int]; split_ifs <;> first | exact hok x | decide)

theorem trackLiteral_keeps (ps : List Int) (v : Int) (x : Nat) (s : Int)
    (hs : s = 1 ∨ s = -1) (h : ps.getD x 0 = s ∨ ps.getD x 0 = 2) :
    (trackLiteral ps v).getD x 0 = s ∨ (trackLiteral ps v).getD x 0 = 2 := by
  unfold trackLiteral
  split_ifs with h1 h2 h3 h4 h5 h6
  · rw [getD_set_int]
    split_ifs with h7
    · rw [h7.1] at h2; omega
    · exact h
  · rw [getD_set_int]
    split_ifs with h7
    · right; rfl
    · exact h
  · exact h
  · rw [getD_set_int]
    split_ifs with h7
    · rw [h7.1] at h5; omega
    · exact h
  · rw [getD_set_int]
    split_ifs with h7
    · right; rfl
    · exact h
  · exact h
  · exact h

theorem trackLiteral_marks (ps : List Int) (v : Int) (hv : v ≠ 0) (hlt : varOf v < ps.length)
    (hok : ∀ x, ps.getD x 0 = 0 ∨ ps.getD x 0 = 1 ∨ ps.getD x 0 = -1 ∨ ps.getD x 0 = 2) :
    (trackLiteral ps v).getD (varOf v) 0 = signOf v ∨
      (trackLiteral ps v).getD (varOf v) 0 = 2 := by
  unfold trackLiteral signOf
  by_cases h1 : v > 0
  · rw [if_pos h1, if_pos h1, toNat_eq_varOf_pos v h1]
    split_ifs with h2 h3
    · rw [getD_set_int, if_pos ⟨rfl, hlt⟩]; left; rfl
    · rw [getD_set_int, if_pos ⟨rfl, hlt⟩]; right; rfl
    · rcases hok (varOf v) with h | h | h | h
      · exact absurd h h2
      · left; exact h
      · exact absurd h h3
      · right; exact h
  · have h1n : v < 0 := by omega
    rw [if_neg h1, if_neg h1, if_pos h1n, toNat_eq_varOf_neg v h1n]
    split_ifs with h2 h3
    · rw [getD_set_int, if_pos ⟨rfl, hlt⟩]; left; rfl
    · rw [getD_set_int, if_pos ⟨rfl, hlt⟩]; right; rfl
    · rcases hok (varOf v) with h | h | h | h
      · exact absurd h h2
      · exact absurd h h3
      · left; exact h
      · right; exact h

theorem signOf_cases (v : Int) : signOf v = 1 ∨ signOf v = -1 := by
  unfold signOf
  split_ifs
  · left; rfl
  · right; rfl

theorem foldl_trackLiteral (cls : List Int) :
    ∀ (ps : List Int),
      (∀ x, ps.getD x 0 = 0 ∨ ps.getD x 0 = 1 ∨ ps.getD x 0 = -1 ∨ ps.getD x 0 = 2) →
      (∀ v ∈ cls, v ≠ 0 ∧ varOf v < ps.length) →
      (∀ x, (cls.foldl trackLiteral ps).getD x 0 = 0 ∨ (cls.foldl trackLiteral ps).getD x 0 = 1 ∨
        (cls.foldl trackLiteral ps).getD x 0 = -1 ∨ (cls.foldl trackLiteral ps).getD x 0 = 2) ∧
      (cls.foldl trackLiteral ps).length = ps.length ∧
      (∀ x s, (s = 1 ∨ s = -1) → (ps.getD x 0 = s ∨ ps.getD x 0 = 2) →
        ((cls.foldl trackLiteral ps).getD x 0 = s ∨ (cls.foldl trackLiteral ps).getD x 0 = 2)) ∧
      (∀ v ∈ cls, (cls.foldl trackLiteral ps).getD (varOf v) 0 = signOf v ∨
        (cls.foldl trackLiteral ps).getD (varOf v) 0 = 2) := by
  induction cls with
  | nil =>
    intro ps hok _
    refine ⟨hok, rfl, fun x s _ h => h, ?_⟩
    intro v hv
    cases hv
  | cons u cls ih =>
    intro ps hok hwf
    have hu := hwf u (List.mem_cons_self _ _)
    have hwf1 : ∀ v ∈ cls, v ≠ 0 ∧ varOf v < (trackLiteral ps u).length := by
      intro v hv
      rw [trackLiteral_length]
      exact hwf v (List.mem_cons_of_mem _ hv)
    obtain ⟨i1, i2, i3, i4⟩ := ih (trackLiteral ps u) (trackLiteral_marks_ok ps u hok) hwf1
    simp only [List.foldl_cons]
    refine ⟨i1, by rw [i2, trackLiteral_length], ?_, ?_⟩
    · intro x s hs h
      exact i3 x s hs (trackLiteral_keeps ps u x s hs h)
    · intro v hv
      rcases List.mem_cons.mp hv with rfl | hv
      · exact i3 _ _ (signOf_cases v) (trackLiteral_marks ps v hu.1 hu.2 hok)
      · exact i4 v hv

theorem foldl_trackClauses (clss : Formula) :
    ∀ (ps : List Int),
      (∀ x, ps.getD x 0 = 0 ∨ ps.getD x 0 = 1 ∨ ps.getD x 0 = -1 ∨ ps.getD x 0 = 2) →
      (∀ cls ∈ clss, ∀ v ∈ cls, v ≠ 0 ∧ varOf v < ps.length) →
      (∀ x s, (s = 1 ∨ s = -1) → (ps.getD x 0 = s ∨ ps.getD x 0 = 2) →
        ((clss.foldl (fun ps cls => cls.foldl trackLiteral ps) ps).getD x 0 = s ∨
          (clss.foldl (fun ps cls => cls.foldl trackLiteral ps) ps).getD x 0 = 2)) ∧
      (∀ cls ∈ clss, ∀ v ∈ cls,
        (clss.foldl (fun ps cls => cls.foldl trackLiteral ps) ps).getD (varOf v) 0 = signOf v ∨
        (clss.foldl (fun ps cls => cls.foldl trackLiteral ps) ps).getD (varOf v) 0 = 2) := by
  induction clss with
  | nil =>
    intro ps _ _
    refine ⟨fun x s _ h => h, ?_⟩
    intro cls hcls
    cases hcls
  | cons c clss ih =>
    intro ps hok hwf
    obtain ⟨j1, j2, j3, j4⟩ := foldl_trackLiteral c ps hok (hwf c (List.mem_cons_self _ _))
    have hwf1 : ∀ cls ∈ clss, ∀ v ∈ cls, v ≠ 0 ∧ varOf v < (c.foldl trackLiteral ps).length := by
      intro cls hcls v hv
      rw [j2]
      exact hwf cls (List.mem_cons_of_mem _ hcls) v hv
    obtain ⟨i3, i4⟩ := ih (c.foldl trackLiteral ps) j1 hwf1
    simp only [List.foldl_cons]
    refine ⟨fun x s hs h => i3 x s hs (j3 x s hs h), ?_⟩
    intro cls hcls v hv
    rcases List.mem_cons.mp hcls with rfl | hcls
    · exact i3 _ _ (signOf_cases v) (j4 v hv)
    · exact i4 cls hcls v hv

/-- The mark of the variable of a literal of the formula is the sign of that literal
or Mixed. -/
theorem parsePures_marks (n : Nat) (clss : Formula) (hwf : wellFormed n clss) :
    ∀ cls ∈ clss, ∀ v ∈ cls,
      (parsePures n clss).getD (varOf v) 0 = signOf v ∨
      (parsePures n clss).getD (varOf v) 0 = 2 := by
  unfold parsePures
  refine (foldl_trackClauses clss (List.replicate (n + 1) 0) ?_ ?_).2
  · intro x
    left
    exact valAt_replicate_zero (n + 1) x
  · intro cls hcls v hv
    rw [List.length_replicate]
    exact ⟨(hwf cls hcls v hv).1, Nat.lt_succ_of_le (hwf cls hcls v hv).2⟩

theorem pureLoop_marked_value (n : Nat) (pures : List Int) (a : Assignment)
    (hlen : a.length = n + 1) (i : Nat) (h1 : 1 ≤ i) (h2 : i ≤ n)
    (h : pures.getD i 0 = 1 ∨ pures.getD i 0 = -1) :
    valAt (pureLiteralElimination n pures a) i = pures.getD i 0 := by
  unfold pureLiteralElimination
  rw [pureLoop_valAt, if_pos ⟨h1, by omega, by omega, h⟩]

theorem watchersOf_set (W : WatchIndex) (x y : Nat) (ws : List Nat) :
    watchersOf (W.set x ws) y = if x = y ∧ x < W.length then ws else watchersOf W y := by
  unfold watchersOf
  rw [List.getD_eq_getElem?_getD, List.getD_eq_getElem?_getD, List.getElem?_set]
  by_cases hxy : x = y
  · subst hxy
    by_cases hlt : x < W.length
    · simp [hlt]
    · have hnone : W[x]? = none := List.getElem?_eq_none (Nat.le_of_not_lt hlt)
      simp [hlt, hnone]
  · simp [hxy]

theorem watchersOf_nil_of_le (W : WatchIndex) (x : Nat) (h : W.length ≤ x) :
    watchersOf W x = [] := by
  unfold watchersOf
  rw [List.getD_eq_getElem?_getD, List.getElem?_eq_none h]
  rfl

theorem lt_length_of_watchers (W : WatchIndex) (x i : Nat)
    (h : i < (watchersOf W x).length) : x < W.length := by
  by_contra hx
  rw [watchersOf_nil_of_le W x (Nat.le_of_not_lt hx)] at h
  simp at h

theorem sumOver_set (f : List Nat → Nat) :
    ∀ (W : WatchIndex) (x : Nat) (ws : List Nat), x < W.length →
      sumOver f (W.set x ws) + f (watchersOf W x) = sumOver f W + f ws := by
  intro W
  induction W with
  | nil => intro x ws h; simp at h
  | cons w W ih =>
    intro x ws h
    cases x with
    | zero =>
      simp only [List.set_cons_zero, sumOver, watchersOf, List.getD_cons_zero]
      omega
    | succ x =>
      have hx : x < W.length := by simpa using h
      have := ih x ws hx
      simp only [List.set_cons_succ, sumOver, watchersOf, List.getD_cons_succ] at this ⊢
      omega

theorem set_eq_self_of_le (W : WatchIndex) (x : Nat) (ws : List Nat) (h : W.length ≤ x) :
    W.set x ws = W := by
  apply List.ext_getElem?
  intro j
  rw [List.getElem?_set]
  by_cases hj : x = j
  · subst hj
    have h1 : ¬ x < W.length := by omega
    simp [h1, List.getElem?_eq_none h]
  · simp [hj]

theorem count_eraseIdx_add (q : Nat) :
    ∀ (l : List Nat) (k : Nat), k < l.length →
      (l.eraseIdx k).count q + (if l.getD k 0 = q then 1 else 0) = l.count q := by
  intro l
  induction l with
  | nil => intro k h; simp at h
  | cons y l ih =>
    intro k h
    cases k with
    | zero =>
      simp only [List.eraseIdx_cons_zero, List.getD_cons_zero, List.count_cons]
      by_cases hy : y = q <;> simp [hy]
    | succ k =>
      have hk : k < l.length := by simpa using h
      have := ih k hk
      simp only [List.eraseIdx_cons_succ, List.getD_cons_succ, List.count_cons]
      omega

theorem getD_append_left_nat (l : List Nat) (p i : Nat) (h : i < l.length) :
    (l ++ [p]).getD i 0 = l.getD i 0 := by
  rw [List.getD_eq_getElem?_getD, List.getD_eq_getElem?_getD, List.getElem?_append_left h]

theorem pushWatch_length (W : WatchIndex) (x p : Nat) : (pushWatch W x p).length = W.length := by
  unfold pushWatch; simp

theorem eraseWatch_length (W : WatchIndex) (x k : Nat) : (eraseWatch W x k).length = W.length := by
  unfold eraseWatch; simp

theorem watchersOf_pushWatch (W : WatchIndex) (x p y : Nat) :
    watchersOf (pushWatch W x p) y =
      if x = y ∧ x < W.length then watchersOf W x ++ [p] else watchersOf W y := by
  unfold pushWatch
  exact watchersOf_set W x y _

theorem watchersOf_eraseWatch (W : WatchIndex) (x k y : Nat) :
    watchersOf (eraseWatch W x k) y =
      if x = y ∧ x < W.length then (watchersOf W x).eraseIdx k else watchersOf W y := by
  unfold eraseWatch
  exact watchersOf_set W x y _

theorem count_singleton_nat (p q : Nat) : ([p] : List Nat).count q = if p = q then 1 else 0 := by
  by_cases h : p = q
  · subst h; simp
  · have hb : (p == q) = false := by simpa using h
    simp [List.count_cons, hb, h]

theorem regCount_pushWatch (W : WatchIndex) (x p q : Nat) (hx : x < W.length) :
    regCount (pushWatch W x p) q = regCount W q + (if p = q then 1 else 0) := by
  unfold regCount pushWatch
  have := sumOver_set (fun ws => ws.count q) W x (watchersOf W x ++ [p]) hx
  simp only [List.count_append] at this
  rw [count_singleton_nat] at this
  omega

theorem totalLen_pushWatch (W : WatchIndex) (x p : Nat) :
    totalLen (pushWatch W x p) ≤ totalLen W + 1 := by
  by_cases hx : x < W.length
  · unfold totalLen pushWatch
    have := sumOver_set List.length W x (watchersOf W x ++ [p]) hx
    simp only [List.length_append, List.length_singleton] at this
    omega
  · unfold pushWatch
    rw [set_eq_self_of_le W x _ (Nat.le_of_not_lt hx)]
    omega

theorem regCount_eraseWatch (W : WatchIndex) (x k q : Nat)
    (hk : k < (watchersOf W x).length) :
    regCount (eraseWatch W x k) q + (if (watchersOf W x).getD k 0 = q then 1 else 0) =
      regCount W q := by
  have hx := lt_length_of_watchers W x k hk
  unfold regCount eraseWatch
  have h1 := sumOver_set (fun ws => ws.count q) W x ((watchersOf W x).eraseIdx k) hx
  have h2 := count_eraseIdx_add q (watchersOf W x) k hk
  simp only at h1
  omega

theorem totalLen_eraseWatch (W : WatchIndex) (x k : Nat)
    (hk : k < (watchersOf W x).length) :
    totalLen (eraseWatch W x k) + 1 = totalLen W := by
  have hx := lt_length_of_watchers W x k hk
  unfold totalLen eraseWatch
  have h1 := sumOver_set List.length W x ((watchersOf W x).eraseIdx k) hx
  have h2 : ((watchersOf W x).eraseIdx k).length = (watchersOf W x).length - 1 := by
    rw [List.length_eraseIdx, if_pos hk]
  omega

/-- After the push of a move, the entry that the move erases is still at its
position and still names the same clause. -/
theorem pushWatch_keeps_position (W : WatchIndex) (u x i : Nat)
    (hi : i < (watchersOf W x).length) :
    i < (watchersOf (pushWatch W u ((watchersOf W x).getD i 0)) x).length ∧
    (watchersOf (pushWatch W u ((watchersOf W x).getD i 0)) x).getD i 0 =
      (watchersOf W x).getD i 0 := by
  rw [watchersOf_pushWatch]
  by_cases h : u = x ∧ u < W.length
  · rw [if_pos h]
    obtain ⟨rfl, _⟩ := h
    refine ⟨by rw [List.length_append]; omega, getD_append_left_nat _ _ _ hi⟩
  · rw [if_neg h]
    exact ⟨hi, rfl⟩

theorem rewatchStep_length (clss : Formula) (W W1 : WatchIndex) (h : rewatchStep clss W W1) :
    W1.length = W.length := by
  obtain ⟨x, i, v, _, _, rfl⟩ := h
  rw [eraseWatch_length, pushWatch_length]

theorem rewatchStep_totalLen (clss : Formula) (W W1 : WatchIndex) (h : rewatchStep clss W W1) :
    totalLen W1 ≤ totalLen W := by
  obtain ⟨x, i, v, hi, _, rfl⟩ := h
  have hp := pushWatch_keeps_position W (varOf v) x i hi
  have h1 := totalLen_eraseWatch _ x i hp.1
  have h2 := totalLen_pushWatch W (varOf v) ((watchersOf W x).getD i 0)
  omega

theorem rewatchStep_regCount (n : Nat) (clss : Formula) (hwf : wellFormed n clss)
    (W W1 : WatchIndex) (hlen : W.length = n + 1) (h : rewatchStep clss W W1) (q : Nat) :
    regCount W1 q = regCount W q := by
  obtain ⟨x, i, v, hi, hv, rfl⟩ := h
  have hp := pushWatch_keeps_position W (varOf v) x i hi
  have hmem : clss.getD ((watchersOf W x).getD i 0) [] ∈ clss := by
    by_cases hlt : (watchersOf W x).getD i 0 < clss.length
    · rw [List.getD_eq_getElem _ _ hlt]
      exact List.getElem_mem _
    · rw [List.getD_eq_getElem?_getD, List.getElem?_eq_none (Nat.le_of_not_lt hlt)] at hv
      simp at hv
  have hu : varOf v < W.length := by
    rw [hlen]
    exact Nat.lt_succ_of_le (hwf _ hmem v hv).2
  have h1 := regCount_eraseWatch _ x i q hp.1
  rw [hp.2] at h1
  have h2 := regCount_pushWatch W (varOf v) ((watchersOf W x).getD i 0) q hu
  omega

theorem rewatchStep_ownVars (clss : Formula) (W W1 : WatchIndex) (h : rewatchStep clss W W1)
    (hown : ownVars clss W) : ownVars clss W1 := by
  obtain ⟨x, i, v, hi, hv, rfl⟩ := h
  intro y p hp
  rw [watchersOf_eraseWatch] at hp
  have hp1 : p ∈ watchersOf (pushWatch W (varOf v) ((watchersOf W x).getD i 0)) y := by
    by_cases hc : x = y ∧ x < (pushWatch W (varOf v) ((watchersOf W x).getD i 0)).length
    · rw [if_pos hc] at hp
      rw [← hc.1]
      exact List.mem_of_mem_eraseIdx hp
    · rw [if_neg hc] at hp
      exact hp
  rw [watchersOf_pushWatch] at hp1
  by_cases hc : varOf v = y ∧ varOf v < W.length
  · rw [if_pos hc] at hp1
    rcases List.mem_append.mp hp1 with h1 | h1
    · rw [hc.1] at h1
      exact hown y p h1
    · have : p = (watchersOf W x).getD i 0 := by simpa using h1
      subst this
      exact ⟨v, hv, hc.1⟩
  · rw [if_neg hc] at hp1
    exact hown y p hp1

theorem steps_length (clss : Formula) (W W1 : WatchIndex)
    (h : Relation.ReflTransGen (rewatchStep clss) W W1) : W1.length = W.length := by
  induction h with
  | refl => rfl
  | tail _ hstep ih => rw [rewatchStep_length clss _ _ hstep, ih]

theorem steps_totalLen (clss : Formula) (W W1 : WatchIndex)
    (h : Relation.ReflTransGen (rewatchStep clss) W W1) : totalLen W1 ≤ totalLen W := by
  induction h with
  | refl => exact Nat.le_refl _
  | tail _ hstep ih => exact Nat.le_trans (rewatchStep_totalLen clss _ _ hstep) ih

theorem steps_regCount (n : Nat) (clss : Formula) (hwf : wellFormed n clss)
    (W W1 : WatchIndex) (hlen : W.length = n + 1)
    (h : Relation.ReflTransGen (rewatchStep clss) W W1) (q : Nat) :
    regCount W1 q = regCount W q := by
  induction h with
  | refl => rfl
  | tail hsteps hstep ih =>
    rw [rewatchStep_regCount n clss hwf _ _ (by rw [steps_length clss _ _ hsteps, hlen]) hstep q,
      ih]

theorem steps_ownVars (clss : Formula) (W W1 : WatchIndex)
    (h : Relation.ReflTransGen (rewatchStep clss) W W1) (hown : ownVars clss W) :
    ownVars clss W1 := by
  induction h with
  | refl => exact hown
  | tail _ hstep ih => exact rewatchStep_ownVars clss _ _ hstep ih

theorem updateLoop_cases (a : Assignment) (p : Nat) :
    ∀ (l : List Int) (b : Bool) (W : WatchIndex),
      ((updateLoop a p l b W).1 = 1 ∧ ∃ v ∈ l, litUnassigned a v ∧
          p ∉ watchersOf W (varOf v) ∧ (updateLoop a p l b W).2 = pushWatch W (varOf v) p) ∨
      ((updateLoop a p l b W).1 ≠ 1 ∧ (updateLoop a p l b W).2 = W) := by
  intro l
  induction l with
  | nil =>
    intro b W
    right
    cases b <;> simp [updateLoop]
  | cons u l ih =>
    intro b W
    unfold updateLoop
    by_cases h1 : valAt a (varOf u) * u > 0
    · right
      rw [if_pos h1]
      refine ⟨?_, rfl⟩
      simp
    · rw [if_neg h1]
      by_cases h2 : valAt a (varOf u) = 0
      · rw [if_pos h2]
        by_cases hreg : (watchersOf W (varOf u)).contains p = true
        · rw [if_pos hreg]
          rcases ih true W with ⟨e1, v, hv, hvu, hvw, e2⟩ | ⟨e1, e2⟩
          · exact Or.inl ⟨e1, v, List.mem_cons_of_mem _ hv, hvu, hvw, e2⟩
          · exact Or.inr ⟨e1, e2⟩
        · rw [if_neg hreg]
          left
          refine ⟨rfl, u, List.mem_cons_self _ _, h2, ?_, rfl⟩
          intro hmem
          apply hreg
          simpa using hmem
      · rw [if_neg h2]
        rcases ih b W with ⟨e1, v, hv, hvu, hvw, e2⟩ | ⟨e1, e2⟩
        · exact Or.inl ⟨e1, v, List.mem_cons_of_mem _ hv, hvu, hvw, e2⟩
        · exact Or.inr ⟨e1, e2⟩

theorem updateLoop_two_inv (a : Assignment) (p : Nat) (W : WatchIndex) :
    ∀ (l : List Int) (b : Bool), (updateLoop a p l b W).1 = 2 →
      (∀ v ∈ l, ¬ litTrue a v) ∧
      (∀ v ∈ l, litUnassigned a v → p ∈ watchersOf W (varOf v)) ∧
      (b = true ∨ ∃ u ∈ l, litUnassigned a u) := by
  intro l
  induction l with
  | nil =>
    intro b h
    cases b
    · simp [updateLoop] at h
    · exact ⟨fun v hv => (by cases hv), fun v hv => (by cases hv), Or.inl rfl⟩
  | cons u l ih =>
    intro b h
    unfold updateLoop at h
    by_cases h1 : valAt a (varOf u) * u > 0
    · rw [if_pos h1] at h
      simp at h
    · rw [if_neg h1] at h
      by_cases h2 : valAt a (varOf u) = 0
      · rw [if_pos h2] at h
        by_cases hreg : (watchersOf W (varOf u)).contains p = true
        · rw [if_pos hreg] at h
          obtain ⟨i1, i2, _⟩ := ih true h
          have hmem : p ∈ watchersOf W (varOf u) := by simpa using hreg
          refine ⟨?_, ?_, Or.inr ⟨u, List.mem_cons_self _ _, h2⟩⟩
          · intro v hv
            rcases List.mem_cons.mp hv with rfl | hv
            · exact h1
            · exact i1 v hv
          · intro v hv hvu
            rcases List.mem_cons.mp hv with rfl | hv
            · exact hmem
            · exact i2 v hv hvu
        · rw [if_neg hreg] at h
          simp at h
      · rw [if_neg h2] at h
        obtain ⟨i1, i2, i3⟩ := ih b h
        refine ⟨?_, ?_, ?_⟩
        · intro v hv
          rcases List.mem_cons.mp hv with rfl | hv
          · exact h1
          · exact i1 v hv
        · intro v hv hvu
          rcases List.mem_cons.mp hv with rfl | hv
          · exact absurd hvu h2
          · exact i2 v hv hvu
        · rcases i3 with i3 | ⟨w, hw, hwu⟩
          · exact Or.inl i3
          · exact Or.inr ⟨w, List.mem_cons_of_mem _ hw, hwu⟩

theorem mem_insertUnit (v : Int) : ∀ (us : List Int) (x : Int),
    x ∈ insertUnit v us → x = v ∨ x ∈ us := by
  intro us
  induction us with
  | nil => intro x h; simpa [insertUnit] using h
  | cons u us ih =>
    intro x h
    unfold insertUnit at h
    split_ifs at h with h1 h2
    · rcases List.mem_cons.mp h with h | h
      · exact Or.inl h
      · exact Or.inr h
    · exact Or.inr h
    · rcases List.mem_cons.mp h with h | h
      · exact Or.inr (h ▸ List.mem_cons_self _ _)
      · rcases ih x h with h | h
        · exact Or.inl h
        · exact Or.inr (List.mem_cons_of_mem _ h)

theorem insertUnit_ne_nil (v : Int) (us : List Int) : insertUnit v us ≠ [] := by
  cases us with
  | nil => simp [insertUnit]
  | cons u us =>
    unfold insertUnit
    split_ifs <;> simp

theorem getD_mem_of_mem (clss : Formula) (p : Nat) (v : Int) (h : v ∈ clss.getD p []) :
    clss.getD p [] ∈ clss := by
  by_cases hlt : p < clss.length
  · rw [List.getD_eq_getElem _ _ hlt]
    exact List.getElem_mem _
  · rw [List.getD_eq_getElem?_getD, List.getElem?_eq_none (Nat.le_of_not_lt hlt)] at h
    simp at h

/-- What a finished scan of one watch list leaves: the index is reached by moves of
registrations, and every pending unit that was added is an unassigned literal of a
clause of the formula. -/
theorem scanWatched_post (clss : Formula) (a : Assignment) (target : Int) :
    ∀ (fuel i : Nat) (W : WatchIndex) (units : List Int) (r : Round),
      scanWatched clss a target fuel i W units = some r →
      Relation.ReflTransGen (rewatchStep clss) W r.watched ∧
      ∀ W1 units1, r = Round.done W1 units1 →
        ∀ u ∈ units1, u ∈ units ∨ (litUnassigned a u ∧ ∃ cls ∈ clss, u ∈ cls) := by
  intro fuel
  induction fuel with
  | zero => intro i W units r h; simp [scanWatched] at h
  | succ fuel ih =>
    intro i W units r h
    rw [scanWatched] at h
    split_ifs at h with h1 h2 h3 h4 h5
    · obtain ⟨s1, s2⟩ := ih _ _ _ _ h
      refine ⟨Relation.ReflTransGen.head ?_ s1, s2⟩
      rcases updateLoop_cases a ((watchersOf W (varOf target)).getD i 0)
        (clss.getD ((watchersOf W (varOf target)).getD i 0) []) false W with
        ⟨_, v, hv, _, _, e2⟩ | ⟨e1, _⟩
      · refine ⟨varOf target, i, v, h1, hv, ?_⟩
        unfold updateWatchedLits
        rw [e2]
      · exact absurd h3 e1
    · split at h
      · rename_i v hfind
        split_ifs at h with h6
        · injection h with h
          subst h
          refine ⟨Relation.ReflTransGen.refl, ?_⟩
          intro W1 units1 hr
          cases hr
        · obtain ⟨s1, s2⟩ := ih _ _ _ _ h
          refine ⟨s1, ?_⟩
          intro W1 units1 hr u hu
          rcases s2 W1 units1 hr u hu with h7 | h7
          · rcases mem_insertUnit v units u h7 with h8 | h8
            · subst h8
              right
              have hmem := List.mem_of_find?_eq_some hfind
              have hp := List.find?_some hfind
              exact ⟨by simpa using hp, _, getD_mem_of_mem clss _ _ hmem, hmem⟩
            · exact Or.inl h8
          · exact Or.inr h7
      · exact ih _ _ _ _ h
    · injection h with h
      subst h
      refine ⟨Relation.ReflTransGen.refl, ?_⟩
      intro W1 units1 hr
      cases hr
    · exact ih _ _ _ _ h
    · exact ih _ _ _ _ h
    · injection h with h
      subst h
      refine ⟨Relation.ReflTransGen.refl, ?_⟩
      intro W1 units1 hr
      injection hr with e1 e2
      subst e2
      intro u hu
      exact Or.inl hu

theorem propagate_post (clss : Formula) (a : Assignment) (fuel : Nat) :
    ∀ (targets : List Int) (W : WatchIndex) (units : List Int) (r : Round),
      propagate clss a fuel targets W units = some r →
      Relation.ReflTransGen (rewatchStep clss) W r.watched ∧
      ∀ W1 units1, r = Round.done W1 units1 →
        ∀ u ∈ units1, u ∈ units ∨ (litUnassigned a u ∧ ∃ cls ∈ clss, u ∈ cls) := by
  intro targets
  induction targets with
  | nil =>
    intro W units r h
    simp only [propagate] at h
    injection h with h
    subst h
    refine ⟨Relation.ReflTransGen.refl, ?_⟩
    intro W1 units1 hr
    injection hr with e1 e2
    subst e2
    intro u hu
    exact Or.inl hu
  | cons t rest ih =>
    intro W units r h
    rw [propagate] at h
    cases hs : scanWatched clss a t fuel 0 W units with
    | none => rw [hs] at h; simp at h
    | some s =>
      rw [hs] at h
      obtain ⟨s1, s2⟩ := scanWatched_post clss a t fuel 0 W units s hs
      cases s with
      | conflict W1 =>
        simp only at h
        injection h with h
        subst h
        exact ⟨s1, s2⟩
      | done W1 u1 =>
        simp only at h
        obtain ⟨p1, p2⟩ := ih _ _ _ h
        refine ⟨Relation.ReflTransGen.trans s1 p1, ?_⟩
        intro W2 units2 hr u hu
        rcases p2 W2 units2 hr u hu with h7 | h7
        · exact s2 W1 u1 rfl u h7
        · exact Or.inr h7

theorem solve_steps (n : Nat) (clss : Formula) :
    ∀ (fuel : Nat) (a : Assignment) (targets : List Int) (W : WatchIndex) (r : SolveResult),
      solve n clss fuel a targets W = some r →
      Relation.ReflTransGen (rewatchStep clss) W r.watched := by
  intro fuel
  induction fuel with
  | zero => intro a targets W r h; simp [solve] at h
  | succ fuel ih =>
    intro a targets W r h
    rw [solve] at h
    by_cases h1 : (applyTargets n targets a).1 = false
    · rw [if_pos h1] at h
      injection h with h
      subst h
      exact Relation.ReflTransGen.refl
    · rw [if_neg h1] at h
      cases hp : propagate clss (applyTargets n targets a).2 fuel targets W [] with
      | none => rw [hp] at h; simp at h
      | some s =>
        rw [hp] at h
        have hs := (propagate_post clss _ fuel targets W [] s hp).1
        cases s with
        | conflict W1 =>
          simp only at h
          injection h with h
          subst h
          exact hs
        | done W1 units =>
          simp only at h
          by_cases h2 : AllSatisfied (applyTargets n targets a).2 = true
          · rw [if_pos h2] at h
            injection h with h
            subst h
            exact hs
          by_cases h3 : units.length ≠ 0
          · rw [if_neg h2, if_pos h3] at h
            exact Relation.ReflTransGen.trans hs (ih _ _ _ _ h)
          · rw [if_neg h2, if_neg h3] at h
            cases hc : chooseNext fuel n (applyTargets n targets a).2 0 with
            | none => rw [hc] at h; simp at h
            | some c =>
              rw [hc] at h
              simp only at h
              cases h1s : solve n clss fuel (applyTargets n targets a).2 [(c : Int)] W1 with
              | none => rw [h1s] at h; simp at h
              | some r1 =>
                rw [h1s] at h
                simp only at h
                have hr1 := ih _ _ _ _ h1s
                by_cases h4 : r1.ans = true
                · rw [if_pos h4] at h
                  injection h with h
                  subst h
                  exact Relation.ReflTransGen.trans hs hr1
                · rw [if_neg h4] at h
                  exact Relation.ReflTransGen.trans hs
                    (Relation.ReflTransGen.trans hr1 (ih _ _ _ _ h))

theorem regCount_pushWatch_le (W : WatchIndex) (x p q : Nat) :
    regCount (pushWatch W x p) q ≤ regCount W q + (if p = q then 1 else 0) := by
  by_cases hx : x < W.length
  · rw [regCount_pushWatch W x p q hx]
  · unfold pushWatch
    rw [set_eq_self_of_le W x _ (Nat.le_of_not_lt hx)]
    omega

theorem mem_watchersOf_pushWatch (W : WatchIndex) (x p y q : Nat)
    (h : q ∈ watchersOf (pushWatch W x p) y) : q ∈ watchersOf W y ∨ (q = p ∧ y = x) := by
  rw [watchersOf_pushWatch] at h
  by_cases hc : x = y ∧ x < W.length
  · rw [if_pos hc] at h
    rcases List.mem_append.mp h with h1 | h1
    · rw [hc.1] at h1
      exact Or.inl h1
    · right
      exact ⟨by simpa using h1, hc.1.symm⟩
  · rw [if_neg hc] at h
    exact Or.inl h

theorem initClause_regCount (a : Assignment) (p q : Nat) :
    ∀ (lits : List Int) (cnt : Nat) (W : WatchIndex), cnt < 2 →
      regCount (initClause a p lits cnt W) q ≤
        regCount W q + (if p = q then 2 - cnt else 0) := by
  intro lits
  induction lits with
  | nil => intro cnt W _; simp [initClause]
  | cons v lits ih =>
    intro cnt W hcnt
    unfold initClause
    by_cases h1 : valAt a (varOf v) * v ≠ -1
    · rw [if_pos h1]
      have hpush := regCount_pushWatch_le W (varOf v) p q
      by_cases h2 : cnt + 1 = 2
      · rw [if_pos h2]
        split_ifs at hpush ⊢ <;> omega
      · rw [if_neg h2]
        have := ih (cnt + 1) (pushWatch W (varOf v) p) (by omega)
        split_ifs at hpush this ⊢ <;> omega
    · rw [if_neg h1]
      exact ih cnt W hcnt

theorem initFrom_regCount (a : Assignment) (q : Nat) :
    ∀ (clss : Formula) (p0 : Nat) (W : WatchIndex),
      regCount (initFrom a clss p0 W) q ≤
        regCount W q + (if p0 ≤ q ∧ q < p0 + clss.length then 2 else 0) := by
  intro clss
  induction clss with
  | nil => intro p0 W; simp [initFrom]
  | cons cls rest ih =>
    intro p0 W
    unfold initFrom
    have h1 := ih (p0 + 1) (initClause a p0 cls 0 W)
    have h2 := initClause_regCount a p0 q cls 0 W (by omega)
    simp only [List.length_cons]
    split_ifs at h1 h2 ⊢ <;> omega

theorem sumOver_replicate_nil (f : List Nat → Nat) (hf : f [] = 0) :
    ∀ n, sumOver f (List.replicate n []) = 0 := by
  intro n
  induction n with
  | zero => rfl
  | succ n ih => simp [List.replicate_succ, sumOver, hf, ih]

theorem initClause_ownVars (clss : Formula) (a : Assignment) (p : Nat) :
    ∀ (lits : List Int) (cnt : Nat) (W : WatchIndex),
      (∀ v ∈ lits, v ∈ clss.getD p []) → ownVars clss W →
      ownVars clss (initClause a p lits cnt W) := by
  intro lits
  induction lits with
  | nil => intro cnt W _ h; exact h
  | cons v lits ih =>
    intro cnt W hsub hown
    have hpush : ownVars clss (pushWatch W (varOf v) p) := by
      intro y q hq
      rcases mem_watchersOf_pushWatch W (varOf v) p y q hq with h | ⟨h1, h2⟩
      · exact hown y q h
      · subst h1
        subst h2
        exact ⟨v, hsub v (List.mem_cons_self _ _), rfl⟩
    have hsub1 : ∀ w ∈ lits, w ∈ clss.getD p [] :=
      fun w hw => hsub w (List.mem_cons_of_mem _ hw)
    unfold initClause
    split_ifs
    · exact hpush
    · exact ih _ _ hsub1 hpush
    · exact ih _ _ hsub1 hown

theorem initFrom_ownVars (full : Formula) (a : Assignment) :
    ∀ (rest : Formula) (p0 : Nat) (W : WatchIndex),
      (∀ k, k < rest.length → full.getD (p0 + k) [] = rest.getD k []) →
      ownVars full W → ownVars full (initFrom a rest p0 W) := by
  intro rest
  induction rest with
  | nil => intro p0 W _ h; exact h
  | cons cls rest ih =>
    intro p0 W hidx hown
    unfold initFrom
    apply ih
    · intro k hk
      have := hidx (k + 1) (by simpa using hk)
      simp only [List.getD_cons_succ] at this
      rw [← this]
      congr 1
      omega
    · apply initClause_ownVars full a p0 cls 0 W
      · intro v hv
        have := hidx 0 (by simp)
        simp only [Nat.add_zero, List.getD_cons_zero] at this
        rw [this]
        exact hv
      · exact hown

theorem ownVars_replicate (clss : Formula) (n : Nat) : ownVars clss (List.replicate n []) := by
  intro x p hp
  rw [watchersOf_replicate] at hp
  cases hp

theorem regCount_split (W : WatchIndex) (x p : Nat) (hx : x < W.length) :
    regCount W p = regCount (W.set x []) p + (watchersOf W x).count p := by
  unfold regCount
  have := sumOver_set (fun ws => ws.count p) W x [] hx
  simp only [List.count_nil] at this
  omega

theorem lt_length_of_mem_watchers (W : WatchIndex) (x p : Nat) (h : p ∈ watchersOf W x) :
    x < W.length := by
  by_contra hx
  rw [watchersOf_nil_of_le W x (Nat.le_of_not_lt hx)] at h
  cases h

theorem regCount_ge_three (W : WatchIndex) (p x y z : Nat) (hxy : x ≠ y) (hxz : x ≠ z)
    (hyz : y ≠ z) (hx : p ∈ watchersOf W x) (hy : p ∈ watchersOf W y)
    (hz : p ∈ watchersOf W z) : 3 ≤ regCount W p := by
  have lx := lt_length_of_mem_watchers W x p hx
  have ly := lt_length_of_mem_watchers W y p hy
  have lz := lt_length_of_mem_watchers W z p hz
  have cx : 0 < (watchersOf W x).count p := List.count_pos_iff.mpr hx
  have e1 := regCount_split W x p lx
  have hy1 : p ∈ watchersOf (W.set x []) y := by
    rw [watchersOf_set, if_neg (by omega)]; exact hy
  have hz1 : p ∈ watchersOf (W.set x []) z := by
    rw [watchersOf_set, if_neg (by omega)]; exact hz
  have ly1 : y < (W.set x []).length := by simpa using ly
  have cy : 0 < (watchersOf (W.set x []) y).count p := List.count_pos_iff.mpr hy1
  have e2 := regCount_split (W.set x []) y p ly1
  have hz2 : p ∈ watchersOf ((W.set x []).set y []) z := by
    rw [watchersOf_set, if_neg (by omega)]; exact hz1
  have lz2 : z < ((W.set x []).set y []).length := by simpa using lz
  have cz : 0 < (watchersOf ((W.set x []).set y []) z).count p := List.count_pos_iff.mpr hz2
  have e3 := regCount_split ((W.set x []).set y []) z p lz2
  omega

theorem applyTargets_length (n : Nat) :
    ∀ (ts : List Int) (a : Assignment), (applyTargets n ts a).2.length = a.length := by
  intro ts
  induction ts with
  | nil => intro a; rfl
  | cons t ts ih =>
    intro a
    unfold applyTargets
    split_ifs
    · rfl
    · rw [ih, List.length_set]

theorem signOf_ne_zero (v : Int) : signOf v ≠ 0 := by
  rcases signOf_cases v with h | h <;> rw [h] <;> decide

theorem applyTargets_keeps_assigned (n : Nat) :
    ∀ (ts : List Int) (a : Assignment) (i : Nat), valAt a i ≠ 0 →
      valAt (applyTargets n ts a).2 i ≠ 0 := by
  intro ts
  induction ts with
  | nil => intro a i h; exact h
  | cons t ts ih =>
    intro a i h
    unfold applyTargets
    split_ifs
    · exact h
    · apply ih
      rw [valAt_set]
      split_ifs
      · exact signOf_ne_zero t
      · exact h

theorem applyTargets_assigns (n : Nat) :
    ∀ (ts : List Int) (a : Assignment), a.length = n + 1 → (applyTargets n ts a).1 = true →
      ∀ t ∈ ts, valAt (applyTargets n ts a).2 (varOf t) ≠ 0 := by
  intro ts
  induction ts with
  | nil => intro a _ _ t ht; cases ht
  | cons u ts ih =>
    intro a hlen hok t ht
    unfold applyTargets at hok ⊢
    by_cases hu : varOf u > n
    · rw [if_pos hu] at hok
      simp at hok
    · rw [if_neg hu] at hok ⊢
      rcases List.mem_cons.mp ht with rfl | ht
      · apply applyTargets_keeps_assigned
        rw [valAt_set, if_pos ⟨rfl, by omega⟩]
        exact signOf_ne_zero t
      · exact ih _ (by rw [List.length_set]; exact hlen) hok t ht

theorem applyTargets_in_range (n : Nat) :
    ∀ (ts : List Int) (a : Assignment), (applyTargets n ts a).1 = true →
      ∀ t ∈ ts, varOf t ≤ n := by
  intro ts
  induction ts with
  | nil => intro a _ t ht; cases ht
  | cons u ts ih =>
    intro a hok t ht
    unfold applyTargets at hok
    by_cases hu : varOf u > n
    · rw [if_pos hu] at hok
      simp at hok
    · rw [if_neg hu] at hok
      rcases List.mem_cons.mp ht with rfl | ht
      · omega
      · exact ih _ hok t ht

theorem chooseLoop_some (n : Nat) (a : Assignment) :
    ∀ (fuel cur c : Nat), chooseLoop n a fuel cur = some c → 1 ≤ cur → cur ≤ n →
      valAt a c = 0 ∧ 1 ≤ c ∧ c ≤ n := by
  intro fuel
  induction fuel with
  | zero => intro cur c h; simp [chooseLoop] at h
  | succ fuel ih =>
    intro cur c h h1 h2
    rw [chooseLoop] at h
    by_cases hc : valAt a cur ≠ 0
    · rw [if_pos hc] at h
      by_cases hw : cur + 1 > n
      · rw [if_pos hw] at h
        exact ih _ _ h (by omega) (by omega)
      · rw [if_neg hw] at h
        exact ih _ _ h (by omega) (by omega)
    · rw [if_neg hc] at h
      injection h with h
      subst h
      exact ⟨by simpa using hc, h1, h2⟩

theorem chooseLoop_some_unassigned (n : Nat) (a : Assignment) :
    ∀ (fuel cur c : Nat), chooseLoop n a fuel cur = some c → valAt a c = 0 := by
  intro fuel
  induction fuel with
  | zero => intro cur c h; simp [chooseLoop] at h
  | succ fuel ih =>
    intro cur c h
    rw [chooseLoop] at h
    by_cases hc : valAt a cur ≠ 0
    · rw [if_pos hc] at h
      exact ih _ _ h
    · rw [if_neg hc] at h
      injection h with h
      subst h
      simpa using hc

theorem valAt_set_ne (a : Assignment) (i j : Nat) (s : Int) (h : i ≠ j) :
    valAt (a.set i s) j = valAt a j := by
  rw [valAt_set, if_neg (fun hc => h hc.1)]

theorem valAt_set_self (a : Assignment) (i : Nat) (s : Int) (h : i < a.length) :
    valAt (a.set i s) i = s := by
  rw [valAt_set, if_pos ⟨rfl, h⟩]

theorem unassignedCount_set_of_gt (a : Assignment) (i : Nat) (s : Int) :
    ∀ m, m < i → unassignedCount m (a.set i s) = unassignedCount m a := by
  intro m
  induction m with
  | zero => intro _; rfl
  | succ m ih =>
    intro h
    unfold unassignedCount
    rw [ih (by omega), valAt_set_ne a i (m + 1) s (by omega)]

theorem unassignedCount_set_le (a : Assignment) (i : Nat) (s : Int) (hs : s ≠ 0) :
    ∀ m, unassignedCount m (a.set i s) ≤ unassignedCount m a := by
  intro m
  induction m with
  | zero => exact Nat.le_refl _
  | succ m ih =>
    unfold unassignedCount
    by_cases hc : i = m + 1 ∧ i < a.length
    · obtain ⟨rfl, hlt⟩ := hc
      rw [valAt_set_self a _ s hlt, if_neg hs]
      omega
    · have hv : valAt (a.set i s) (m + 1) = valAt a (m + 1) := by
        rw [valAt_set, if_neg hc]
      rw [hv]
      omega

theorem unassignedCount_set_lt (a : Assignment) (i : Nat) (s : Int) (hs : s ≠ 0)
    (hi : i < a.length) (h0 : valAt a i = 0) :
    ∀ m, 1 ≤ i → i ≤ m → unassignedCount m (a.set i s) + 1 ≤ unassignedCount m a := by
  intro m
  induction m with
  | zero => intro h1 h2; omega
  | succ m ih =>
    intro h1 h2
    unfold unassignedCount
    by_cases hc : i = m + 1
    · subst hc
      rw [valAt_set_self a _ s hi, if_neg hs, if_pos h0,
        unassignedCount_set_of_gt a (m + 1) s m (by omega)]
      omega
    · rw [valAt_set_ne a i (m + 1) s hc]
      have := ih h1 (by omega)
      omega

theorem applyTargets_count_le (n m : Nat) :
    ∀ (ts : List Int) (a : Assignment),
      unassignedCount m (applyTargets n ts a).2 ≤ unassignedCount m a := by
  intro ts
  induction ts with
  | nil => intro a; exact Nat.le_refl _
  | cons t ts ih =>
    intro a
    unfold applyTargets
    split_ifs
    · exact Nat.le_refl _
    · exact Nat.le_trans (ih _) (unassignedCount_set_le a _ _ (signOf_ne_zero t) m)

theorem applyTargets_ok (n : Nat) :
    ∀ (ts : List Int) (a : Assignment), (∀ t ∈ ts, varOf t ≤ n) →
      (applyTargets n ts a).1 = true := by
  intro ts
  induction ts with
  | nil => intro a _; rfl
  | cons t ts ih =>
    intro a h
    unfold applyTargets
    have : ¬ varOf t > n := by
      have := h t (List.mem_cons_self _ _)
      omega
    rw [if_neg this]
    exact ih _ (fun u hu => h u (List.mem_cons_of_mem _ hu))

theorem applyTargets_count_lt (n : Nat) (ts : List Int) (a : Assignment)
    (hlen : a.length = n + 1) (hne : ts ≠ [])
    (hts : ∀ t ∈ ts, 1 ≤ varOf t ∧ varOf t ≤ n ∧ valAt a (varOf t) = 0) :
    unassignedCount n (applyTargets n ts a).2 + 1 ≤ unassignedCount n a := by
  cases ts with
  | nil => exact absurd rfl hne
  | cons t ts =>
    obtain ⟨h1, h2, h3⟩ := hts t (List.mem_cons_self _ _)
    unfold applyTargets
    rw [if_neg (by omega)]
    have hle := applyTargets_count_le n n ts (a.set (varOf t) (signOf t))
    have hlt := unassignedCount_set_lt a (varOf t) (signOf t) (signOf_ne_zero t) (by omega) h3
      n h1 h2
    omega

theorem unassignedCount_pos (a : Assignment) (i : Nat) (h0 : valAt a i = 0) :
    ∀ m, 1 ≤ i → i ≤ m → 1 ≤ unassignedCount m a := by
  intro m
  induction m with
  | zero => intro h1 h2; omega
  | succ m ih =>
    intro h1 h2
    unfold unassignedCount
    by_cases hc : i = m + 1
    · subst hc
      rw [if_pos h0]
      omega
    · have := ih h1 (by omega)
      omega

theorem exists_unassigned_of_not_all (n : Nat) (a : Assignment) (hlen : a.length = n + 1)
    (h : ¬ AllSatisfied a = true) : ∃ i, 1 ≤ i ∧ i ≤ n ∧ valAt a i = 0 := by
  rw [AllSatisfied_iff] at h
  push_neg at h
  obtain ⟨i, h1, h2, h3⟩ := h
  exact ⟨i, h1, by omega, h3⟩

theorem varOf_neg_natCast (k : Nat) : varOf (-(k : Int)) = k := by
  rw [varOf_neg, varOf_natCast]

/-- An invariant of the activations of `solve`: a property that holds for a call and
passes to the call on the pending units and to the two calls on the chosen variable
holds for every activation entered. -/
theorem solveCalls_induction (n : Nat) (clss : Formula) (P : Call → Prop)
    (hunits : ∀ (fuel d : Nat) (a : Assignment) (ts : List Int) (W W1 : WatchIndex)
      (units : List Int), P ⟨d, a, ts, W⟩ → (applyTargets n ts a).1 = true →
      propagate clss (applyTargets n ts a).2 fuel ts W [] = some (Round.done W1 units) →
      ¬ AllSatisfied (applyTargets n ts a).2 = true → units.length ≠ 0 →
      P ⟨d + 1, (applyTargets n ts a).2, units, W1⟩)
    (hdec : ∀ (fuel d : Nat) (a : Assignment) (ts : List Int) (W W2 : WatchIndex) (c : Nat)
      (s : Int), P ⟨d, a, ts, W⟩ → (applyTargets n ts a).1 = true →
      ¬ AllSatisfied (applyTargets n ts a).2 = true →
      chooseNext fuel n (applyTargets n ts a).2 0 = some c →
      (s = (c : Int) ∨ s = -(c : Int)) →
      P ⟨d + 1, (applyTargets n ts a).2, [s], W2⟩) :
    ∀ (fuel d : Nat) (a : Assignment) (ts : List Int) (W : WatchIndex),
      P ⟨d, a, ts, W⟩ → ∀ c ∈ solveCalls n clss fuel d a ts W, P c := by
  intro fuel
  induction fuel with
  | zero =>
    intro d a ts W hP c hc
    simp only [solveCalls, List.mem_singleton] at hc
    subst hc
    exact hP
  | succ fuel ih =>
    intro d a ts W hP c hc
    rw [solveCalls] at hc
    rcases List.mem_cons.mp hc with rfl | hc
    · exact hP
    · by_cases h1 : (applyTargets n ts a).1 = false
      · rw [if_pos h1] at hc
        cases hc
      · rw [if_neg h1] at hc
        have h1t : (applyTargets n ts a).1 = true := by simpa using h1
        cases hp : propagate clss (applyTargets n ts a).2 fuel ts W [] with
        | none => rw [hp] at hc; cases hc
        | some s =>
          rw [hp] at hc
          cases s with
          | conflict W1 => cases hc
          | done W1 units =>
            simp only at hc
            by_cases h2 : AllSatisfied (applyTargets n ts a).2 = true
            · rw [if_pos h2] at hc
              cases hc
            by_cases h3 : units.length ≠ 0
            · rw [if_neg h2, if_pos h3] at hc
              exact ih _ _ _ _ (hunits fuel d a ts W W1 units hP h1t hp h2 h3) c hc
            · rw [if_neg h2, if_neg h3] at hc
              cases hch : chooseNext fuel n (applyTargets n ts a).2 0 with
              | none => rw [hch] at hc; cases hc
              | some x =>
                rw [hch] at hc
                simp only at hc
                rcases List.mem_append.mp hc with hc | hc
                · exact ih _ _ _ _ (hdec fuel d a ts W W1 x _ hP h1t h2 hch (Or.inl rfl)) c hc
                · cases h1s : solve n clss fuel (applyTargets n ts a).2 [(x : Int)] W1 with
                  | none => rw [h1s] at hc; cases hc
                  | some r1 =>
                    rw [h1s] at hc
                    simp only at hc
                    by_cases h4 : r1.ans = true
                    · rw [if_pos h4] at hc
                      cases hc
                    · rw [if_neg h4] at hc
                      exact ih _ _ _ _
                        (hdec fuel d a ts W r1.watched x _ hP h1t h2 hch (Or.inr rfl)) c hc

/-- The same for the activations entered from `main`. -/
theorem mainCalls_induction (n : Nat) (clss : Formula) (P : Call → Prop)
    (hroot : ∀ (fuel c : Nat) (s : Int) (W : WatchIndex),
      chooseNext fuel n (rootAssignment n clss) 0 = some c →
      (s = (c : Int) ∨ s = -(c : Int)) → P ⟨0, rootAssignment n clss, [s], W⟩)
    (hunits : ∀ (fuel d : Nat) (a : Assignment) (ts : List Int) (W W1 : WatchIndex)
      (units : List Int), P ⟨d, a, ts, W⟩ → (applyTargets n ts a).1 = true →
      propagate clss (applyTargets n ts a).2 fuel ts W [] = some (Round.done W1 units) →
      ¬ AllSatisfied (applyTargets n ts a).2 = true → units.length ≠ 0 →
      P ⟨d + 1, (applyTargets n ts a).2, units, W1⟩)
    (hdec : ∀ (fuel d : Nat) (a : Assignment) (ts : List Int) (W W2 : WatchIndex) (c : Nat)
      (s : Int), P ⟨d, a, ts, W⟩ → (applyTargets n ts a).1 = true →
      ¬ AllSatisfied (applyTargets n ts a).2 = true →
      chooseNext fuel n (applyTargets n ts a).2 0 = some c →
      (s = (c : Int) ∨ s = -(c : Int)) →
      P ⟨d + 1, (applyTargets n ts a).2, [s], W2⟩) :
    ∀ (fuel : Nat), ∀ c ∈ mainCalls fuel n clss, P c := by
  intro fuel c hc
  unfold mainCalls at hc
  by_cases h1 : (unitPropagation clss (List.replicate (n + 1) 0)).1 = true
  · rw [if_pos h1] at hc
    cases hc
  · rw [if_neg h1] at hc
    cases hch : chooseNext fuel n (rootAssignment n clss) 0 with
    | none => rw [hch] at hc; cases hc
    | some x =>
      rw [hch] at hc
      simp only at hc
      rcases List.mem_append.mp hc with hc | hc
      · exact solveCalls_induction n clss P hunits hdec fuel 0 _ _ _
          (hroot fuel x _ _ hch (Or.inl rfl)) c hc
      · cases h1s : solve n clss fuel (rootAssignment n clss) [(x : Int)]
            (initWatchedLits clss (rootAssignment n clss) (List.replicate (n + 1) [])) with
        | none => rw [h1s] at hc; cases hc
        | some r1 =>
          rw [h1s] at hc
          simp only at hc
          by_cases h4 : r1.ans = true
          · rw [if_pos h4] at hc
            cases hc
          · rw [if_neg h4] at hc
            exact solveCalls_induction n clss P hunits hdec fuel 0 _ _ _
              (hroot fuel x _ _ hch (Or.inr rfl)) c hc

theorem chooseNext_unassigned_exists (n : Nat) (a : Assignment)
    (h : ∃ i, 1 ≤ i ∧ i ≤ n ∧ valAt a i = 0) :
    ∃ c, 1 ≤ c ∧ c ≤ n ∧ valAt a c = 0 ∧ (∀ j, 1 ≤ j → j < c → valAt a j ≠ 0) ∧
      ∀ fuel, c ≤ fuel → chooseNext fuel n a 0 = some c := by
  classical
  have hspec := Nat.find_spec h
  have hmin := fun j => @Nat.find_min _ _ h j
  obtain ⟨k, hk⟩ : ∃ k, Nat.find h = k + 1 := ⟨Nat.find h - 1, by omega⟩
  rw [hk] at hspec
  have hlow : ∀ j, 1 ≤ j → j < k + 1 → valAt a j ≠ 0 := by
    intro j h1 h2 h0
    exact hmin j (by omega) ⟨h1, by omega, h0⟩
  refine ⟨k + 1, hspec.1, hspec.2.1, hspec.2.2, hlow, ?_⟩
  intro fuel hfuel
  unfold chooseNext
  exact chooseLoop_first n a k hspec.2.1 (fun i h1 h2 => hlow i h1 (by omega))
    hspec.2.2 fuel 1 (by omega) (by omega) (by omega)

theorem watchers_length_le_totalLen :
    ∀ (W : WatchIndex) (x : Nat), (watchersOf W x).length ≤ totalLen W := by
  intro W
  induction W with
  | nil => intro x; simp [watchersOf, totalLen, sumOver]
  | cons w W ih =>
    intro x
    cases x with
    | zero =>
      simp only [watchersOf, totalLen, sumOver, List.getD_cons_zero]
      omega
    | succ x =>
      have := ih x
      simp only [watchersOf, totalLen, sumOver, List.getD_cons_succ] at this ⊢
      omega

/-- The scan of the watch list of a bound target ends: every step advances the
iterator or erases the entry under it, and a push goes to another list. -/
theorem scanWatched_terminates (clss : Formula) (a : Assignment) (target : Int)
    (ht : valAt a (varOf target) ≠ 0) :
    ∀ (k fuel i : Nat) (W : WatchIndex) (units : List Int),
      (watchersOf W (varOf target)).length ≤ i + k → k + 1 ≤ fuel →
      ∃ r, scanWatched clss a target fuel i W units = some r := by
  intro k
  induction k with
  | zero =>
    intro fuel i W units hlen hfuel
    obtain ⟨f, rfl⟩ : ∃ f, fuel = f + 1 := ⟨fuel - 1, by omega⟩
    rw [scanWatched, if_neg (by omega)]
    exact ⟨_, rfl⟩
  | succ k ih =>
    intro fuel i W units hlen hfuel
    obtain ⟨f, rfl⟩ : ∃ f, fuel = f + 1 := ⟨fuel - 1, by omega⟩
    rw [scanWatched]
    split_ifs with h1 h2 h3 h4 h5
    · apply ih
      · rcases updateLoop_cases a ((watchersOf W (varOf target)).getD i 0)
          (clss.getD ((watchersOf W (varOf target)).getD i 0) []) false W with
          ⟨_, v, _, hvu, _, e2⟩ | ⟨e1, _⟩
        · unfold updateWatchedLits
          rw [e2]
          have hne : ¬ (varOf v = varOf target ∧ varOf v < W.length) := by
            intro hc
            unfold litUnassigned at hvu
            rw [hc.1] at hvu
            exact ht hvu
          have hx := lt_length_of_watchers W (varOf target) i h1
          rw [watchersOf_eraseWatch, if_pos ⟨rfl, by rw [pushWatch_length]; exact hx⟩,
            watchersOf_pushWatch, if_neg hne, List.length_eraseIdx, if_pos h1]
          omega
        · exact absurd h3 e1
      · omega
    · split
      · split_ifs
        · exact ⟨_, rfl⟩
        · exact ih _ _ _ _ (by omega) (by omega)
      · exact ih _ _ _ _ (by omega) (by omega)
    · exact ⟨_, rfl⟩
    · exact ih _ _ _ _ (by omega) (by omega)
    · exact ih _ _ _ _ (by omega) (by omega)
    · exact ⟨_, rfl⟩

theorem propagate_terminates (clss : Formula) (a : Assignment) (fuel : Nat) :
    ∀ (targets : List Int) (W : WatchIndex) (units : List Int),
      (∀ t ∈ targets, valAt a (varOf t) ≠ 0) → totalLen W + 1 ≤ fuel →
      ∃ r, propagate clss a fuel targets W units = some r := by
  intro targets
  induction targets with
  | nil => intro W units _ _; exact ⟨_, rfl⟩
  | cons t rest ih =>
    intro W units hts hfuel
    obtain ⟨s, hs⟩ := scanWatched_terminates clss a t (hts t (List.mem_cons_self _ _))
      (watchersOf W (varOf t)).length fuel 0 W units (by omega)
      (by have := watchers_length_le_totalLen W (varOf t); omega)
    rw [propagate, hs]
    cases s with
    | conflict W1 => exact ⟨_, rfl⟩
    | done W1 u1 =>
      have hle := steps_totalLen clss W W1 (scanWatched_post clss a t fuel 0 W units _ hs).1
      exact ih W1 u1 (fun u hu => hts u (List.mem_cons_of_mem _ hu)) (by omega)

/-- The pending units of a finished round: each is an unassigned literal of a clause
of the formula. -/
theorem propagate_units (n : Nat) (clss : Formula) (hwf : wellFormed n clss) (a : Assignment)
    (fuel : Nat) (targets : List Int) (W W1 : WatchIndex) (units : List Int)
    (h : propagate clss a fuel targets W [] = some (Round.done W1 units)) :
    ∀ u ∈ units, 1 ≤ varOf u ∧ varOf u ≤ n ∧ valAt a (varOf u) = 0 := by
  intro u hu
  rcases (propagate_post clss a fuel targets W [] _ h).2 W1 units rfl u hu with h1 | ⟨h1, cls, hcls, hmem⟩
  · cases h1
  · exact ⟨varOf_pos_of_ne_zero u (hwf cls hcls u hmem).1, (hwf cls hcls u hmem).2, h1⟩

theorem solve_terminates (n : Nat) (clss : Formula) (hwf : wellFormed n clss) :
    ∀ (m fuel : Nat) (a : Assignment) (targets : List Int) (W : WatchIndex),
      a.length = n + 1 → unassignedCount n (applyTargets n targets a).2 ≤ m →
      m + totalLen W + n + 2 ≤ fuel →
      ∃ r, solve n clss fuel a targets W = some r := by
  intro m
  induction m with
  | zero =>
    intro fuel a targets W hlen hm hfuel
    obtain ⟨f, rfl⟩ : ∃ f, fuel = f + 1 := ⟨fuel - 1, by omega⟩
    rw [solve]
    by_cases h1 : (applyTargets n targets a).1 = false
    · rw [if_pos h1]
      exact ⟨_, rfl⟩
    · rw [if_neg h1]
      have h1t : (applyTargets n targets a).1 = true := by simpa using h1
      obtain ⟨s, hs⟩ := propagate_terminates clss (applyTargets n targets a).2 f targets W []
        (applyTargets_assigns n targets a hlen h1t) (by omega)
      rw [hs]
      cases s with
      | conflict W1 => exact ⟨_, rfl⟩
      | done W1 units =>
        simp only
        have hall : AllSatisfied (applyTargets n targets a).2 = true := by
          by_contra hnot
          obtain ⟨i, i1, i2, i3⟩ := exists_unassigned_of_not_all n _
            (by rw [applyTargets_length]; exact hlen) hnot
          have := unassignedCount_pos _ i i3 n i1 i2
          omega
        rw [if_pos hall]
        exact ⟨_, rfl⟩
  | succ m ih =>
    intro fuel a targets W hlen hm hfuel
    obtain ⟨f, rfl⟩ : ∃ f, fuel = f + 1 := ⟨fuel - 1, by omega⟩
    rw [solve]
    by_cases h1 : (applyTargets n targets a).1 = false
    · rw [if_pos h1]
      exact ⟨_, rfl⟩
    · rw [if_neg h1]
      have h1t : (applyTargets n targets a).1 = true := by simpa using h1
      have hlen1 : (applyTargets n targets a).2.length = n + 1 := by
        rw [applyTargets_length]; exact hlen
      obtain ⟨s, hs⟩ := propagate_terminates clss (applyTargets n targets a).2 f targets W []
        (applyTargets_assigns n targets a hlen h1t) (by omega)
      rw [hs]
      cases s with
      | conflict W1 => exact ⟨_, rfl⟩
      | done W1 units =>
        simp only
        have hW1 := steps_totalLen clss W W1 (propagate_post clss _ f targets W [] _ hs).1
        by_cases h2 : AllSatisfied (applyTargets n targets a).2 = true
        · rw [if_pos h2]
          exact ⟨_, rfl⟩
        rw [if_neg h2]
        by_cases h3 : units.length ≠ 0
        · rw [if_pos h3]
          apply ih f _ units W1 hlen1
          · have hne : units ≠ [] := by
              intro he
              rw [he] at h3
              exact h3 rfl
            have := applyTargets_count_lt n units _ hlen1 hne
              (propagate_units n clss hwf _ f targets W W1 units hs)
            omega
          · omega
        · rw [if_neg h3]
          obtain ⟨c, c1, c2, c3, _, hch⟩ := chooseNext_unassigned_exists n _
            (exists_unassigned_of_not_all n _ hlen1 h2)
          rw [hch f (by omega)]
          simp only
          have hcount : ∀ s : Int, (s = (c : Int) ∨ s = -(c : Int)) →
              unassignedCount n (applyTargets n [s] (applyTargets n targets a).2).2 ≤ m := by
            intro s hs1
            have hvar : varOf s = c := by
              rcases hs1 with rfl | rfl
              · exact varOf_natCast c
              · exact varOf_neg_natCast c
            have := applyTargets_count_lt n [s] _ hlen1 (by simp)
              (by
                intro t ht
                have : t = s := by simpa using ht
                subst this
                rw [hvar]
                exact ⟨c1, c2, c3⟩)
            omega
          obtain ⟨r1, hr1⟩ := ih f _ [(c : Int)] W1 hlen1 (hcount _ (Or.inl rfl)) (by omega)
          rw [hr1]
          simp only
          by_cases h4 : r1.ans = true
          · rw [if_pos h4]
            exact ⟨_, rfl⟩
          · rw [if_neg h4]
            have hW2 := steps_totalLen clss W1 _ (solve_steps n clss f _ _ W1 r1 hr1)
            exact ih f _ [-(c : Int)] r1.watched hlen1 (hcount _ (Or.inr rfl)) (by omega)

theorem applyTargets_untouched (n : Nat) :
    ∀ (ts : List Int) (a : Assignment) (i : Nat), (∀ t ∈ ts, varOf t ≠ i) →
      valAt (applyTargets n ts a).2 i = valAt a i := by
  intro ts
  induction ts with
  | nil => intro a i _; rfl
  | cons t ts ih =>
    intro a i h
    unfold applyTargets
    split_ifs
    · rfl
    · rw [ih _ i (fun u hu => h u (List.mem_cons_of_mem _ hu)),
        valAt_set_ne a (varOf t) i _ (h t (List.mem_cons_self _ _))]

theorem solveCalls_head (n : Nat) (clss : Formula) (fuel d : Nat) (a : Assignment)
    (ts : List Int) (W : WatchIndex) :
    (solveCalls n clss fuel d a ts W).head? = some ⟨d, a, ts, W⟩ := by
  cases fuel with
  | zero => rfl
  | succ fuel => rw [solveCalls]; rfl

theorem mem_insertUnit_self (v : Int) : ∀ (us : List Int), v ∈ insertUnit v us := by
  intro us
  induction us with
  | nil => simp [insertUnit]
  | cons u us ih =>
    unfold insertUnit
    split_ifs with h1 h2
    · exact List.mem_cons_self _ _
    · rw [h2]; exact List.mem_cons_self _ _
    · exact List.mem_cons_of_mem _ ih

theorem insertUnit_keeps (v : Int) : ∀ (us : List Int) (x : Int),
    x ∈ us → x ∈ insertUnit v us := by
  intro us
  induction us with
  | nil => intro x h; cases h
  | cons u us ih =>
    intro x h
    unfold insertUnit
    split_ifs with h1 h2
    · exact List.mem_cons_of_mem _ h
    · exact h
    · rcases List.mem_cons.mp h with h | h
      · rw [h]; exact List.mem_cons_self _ _
      · exact List.mem_cons_of_mem _ (ih x h)

theorem getD_mem_watchers (l : List Nat) (i : Nat) (h : i < l.length) : l.getD i 0 ∈ l := by
  rw [List.getD_eq_getElem _ _ h]
  exact List.getElem_mem _

/-- The answer 2 of `updateWatchedLits` for a clause registered under a bound
variable, with at most two registrations and no literal next to its negation: one
literal is unassigned, the others are false, and the search for the first unassigned
literal finds it. -/
theorem unit_of_answer_two (a : Assignment) (x : Nat) (cls : Clause) (p : Nat)
    (W : WatchIndex) (hassigned : valAt a x ≠ 0) (hreg : p ∈ watchersOf W x)
    (htwo : (updateWatchedLits a cls p W).1 = 2) (hcount : regCount W p ≤ 2)
    (hnotaut : ∀ v ∈ cls, -v ∉ cls) :
    ∃ u ∈ cls, litUnassigned a u ∧
      (∀ v ∈ cls, litUnassigned a v → v = u) ∧
      (∀ v ∈ cls, v ≠ u → litFalse a v) ∧
      cls.find? (fun v => decide (valAt a (varOf v) = 0)) = some u := by
  unfold updateWatchedLits at htwo
  obtain ⟨hnt, hwatched, hex⟩ := updateLoop_two_inv _ p W cls false htwo
  have hex1 : ∃ u ∈ cls, litUnassigned a u := by
    rcases hex with h | h
    · cases h
    · exact h
  have hnz : ∀ v ∈ cls, v ≠ 0 := by
    intro v hv h0
    subst h0
    exact hnotaut 0 hv (by simpa using hv)
  have hfalse : ∀ v ∈ cls, ¬ litUnassigned a v → litFalse a v := by
    intro v hv hna
    have h1 := hnt v hv
    unfold litTrue at h1
    unfold litUnassigned at hna
    unfold litFalse
    have h3 : valAt a (varOf v) * v ≠ 0 := mul_ne_zero hna (hnz v hv)
    omega
  have huniq : ∀ u ∈ cls, ∀ v ∈ cls, litUnassigned a u → litUnassigned a v → v = u := by
    intro u hu v hv huu hvu
    by_contra hne
    have hvar : varOf v ≠ varOf u := by
      intro hvar
      rcases varOf_eq_cases v u hvar with h | h
      · exact hne h
      · subst h
        exact hnotaut u hu hv
    have hut : varOf u ≠ x := by
      intro h
      unfold litUnassigned at huu
      rw [h] at huu
      exact hassigned huu
    have hvt : varOf v ≠ x := by
      intro h
      unfold litUnassigned at hvu
      rw [h] at hvu
      exact hassigned hvu
    have := regCount_ge_three W p (varOf v) (varOf u) x hvar hvt hut
      (hwatched v hv hvu) (hwatched u hu huu) hreg
    omega
  cases hfind : cls.find? (fun v => decide (valAt a (varOf v) = 0)) with
  | none =>
    obtain ⟨u, hu, huu⟩ := hex1
    have := List.find?_eq_none.mp hfind u hu
    simp only [decide_eq_true_eq] at this
    exact absurd huu this
  | some u =>
    have hmem := List.mem_of_find?_eq_some hfind
    have hp := List.find?_some hfind
    have huu : litUnassigned a u := by simpa using hp
    refine ⟨u, hmem, huu, fun v hv hvu => huniq u hmem v hv huu hvu, ?_, rfl⟩
    intro v hv hne
    exact hfalse v hv (fun hvu => hne (huniq u hmem v hv huu hvu))

/-- The step of the loop of `solve` on the answer 2: the first unassigned literal of
the clause is checked against the pending units and inserted. -/
theorem scanWatched_unit_step (clss : Formula) (a : Assignment) (target : Int) (i : Nat)
    (W : WatchIndex) (u : Int)
    (hi : i < (watchersOf W (varOf target)).length)
    (hcont : (clss.getD ((watchersOf W (varOf target)).getD i 0) []).contains (-target) = true)
    (htwo : (updateWatchedLits a (clss.getD ((watchersOf W (varOf target)).getD i 0) [])
      ((watchersOf W (varOf target)).getD i 0) W).1 = 2)
    (hfind : (clss.getD ((watchersOf W (varOf target)).getD i 0) []).find?
      (fun v => decide (valAt a (varOf v) = 0)) = some u) :
    ∀ (fuel : Nat) (units : List Int),
      scanWatched clss a target (fuel + 1) i W units =
        if units.contains (-u) then some (Round.conflict W)
        else scanWatched clss a target fuel (i + 1) W (insertUnit u units) := by
  intro fuel units
  have hne : ¬ (updateWatchedLits a (clss.getD ((watchersOf W (varOf target)).getD i 0) [])
      ((watchersOf W (varOf target)).getD i 0) W).1 = 1 := by
    rw [htwo]; decide
  rw [scanWatched, if_pos hi, if_pos hcont, if_neg hne, if_pos htwo, hfind]

/-- The step of the loop of `solve` on the answer 1: the clause is registered under
the variable of an unassigned literal and its entry under the iterator is erased. -/
theorem scanWatched_rewatch_step (clss : Formula) (a : Assignment) (target : Int) (i : Nat)
    (W : WatchIndex)
    (hi : i < (watchersOf W (varOf target)).length)
    (hcont : (clss.getD ((watchersOf W (varOf target)).getD i 0) []).contains (-target) = true)
    (hone : (updateWatchedLits a (clss.getD ((watchersOf W (varOf target)).getD i 0) [])
      ((watchersOf W (varOf target)).getD i 0) W).1 = 1) :
    ∃ v ∈ clss.getD ((watchersOf W (varOf target)).getD i 0) [],
      litUnassigned a v ∧
      (watchersOf W (varOf target)).getD i 0 ∉ watchersOf W (varOf v) ∧
      ∀ (fuel : Nat) (units : List Int),
        scanWatched clss a target (fuel + 1) i W units =
          scanWatched clss a target fuel i
            (eraseWatch (pushWatch W (varOf v) ((watchersOf W (varOf target)).getD i 0))
              (varOf target) i) units := by
  rcases updateLoop_cases a ((watchersOf W (varOf target)).getD i 0)
    (clss.getD ((watchersOf W (varOf target)).getD i 0) []) false W with
    ⟨_, v, hv, hvu, hvw, e2⟩ | ⟨e1, _⟩
  · refine ⟨v, hv, hvu, hvw, ?_⟩
    intro fuel units
    have e3 : (updateWatchedLits a (clss.getD ((watchersOf W (varOf target)).getD i 0) [])
        ((watchersOf W (varOf target)).getD i 0) W).2 =
        pushWatch W (varOf v) ((watchersOf W (varOf target)).getD i 0) := e2
    rw [scanWatched, if_pos hi, if_pos hcont, if_pos hone, e3]
  · exact absurd hone e1

/-- The shape of the watch index after a move: one entry more under the new
variable, the entry under the iterator gone, every other list as before. -/
theorem rewatch_lists (W : WatchIndex) (x y i : Nat) (hxy : y ≠ x) (hy : y < W.length)
    (hi : i < (watchersOf W x).length) :
    watchersOf (eraseWatch (pushWatch W y ((watchersOf W x).getD i 0)) x i) y =
      watchersOf W y ++ [(watchersOf W x).getD i 0] ∧
    watchersOf (eraseWatch (pushWatch W y ((watchersOf W x).getD i 0)) x i) x =
      (watchersOf W x).eraseIdx i ∧
    ∀ z, z ≠ y → z ≠ x →
      watchersOf (eraseWatch (pushWatch W y ((watchersOf W x).getD i 0)) x i) z =
        watchersOf W z := by
  have hx := lt_length_of_watchers W x i hi
  refine ⟨?_, ?_, ?_⟩
  · rw [watchersOf_eraseWatch, if_neg (fun hc => hxy hc.1.symm), watchersOf_pushWatch,
      if_pos ⟨rfl, hy⟩]
  · rw [watchersOf_eraseWatch, if_pos ⟨rfl, by rw [pushWatch_length]; exact hx⟩,
      watchersOf_pushWatch, if_neg (fun hc => hxy hc.1)]
  · intro z hzy hzx
    rw [watchersOf_eraseWatch, if_neg (fun hc => hzx hc.1.symm), watchersOf_pushWatch,
      if_neg (fun hc => hzy hc.1.symm)]

/-- The step of the loop of `solve` on the other answers: the watch index is left as
it is. -/
theorem scanWatched_other_step (clss : Formula) (a : Assignment) (target : Int) (i : Nat)
    (W : WatchIndex) (hi : i < (watchersOf W (varOf target)).length)
    (hne : (updateWatchedLits a (clss.getD ((watchersOf W (varOf target)).getD i 0) [])
      ((watchersOf W (varOf target)).getD i 0) W).1 ≠ 1) :
    ∀ (fuel : Nat) (units : List Int),
      scanWatched clss a target (fuel + 1) i W units = some (Round.conflict W) ∨
      ∃ units1, scanWatched clss a target (fuel + 1) i W units =
        scanWatched clss a target fuel (i + 1) W units1 := by
  intro fuel units
  rw [scanWatched, if_pos hi]
  by_cases h2 : (clss.getD ((watchersOf W (varOf target)).getD i 0) []).contains (-target) = true
  · rw [if_pos h2, if_neg hne]
    by_cases h3 : (updateWatchedLits a (clss.getD ((watchersOf W (varOf target)).getD i 0) [])
        ((watchersOf W (varOf target)).getD i 0) W).1 = 2
    · rw [if_pos h3]
      split
      · split_ifs
        · exact Or.inl rfl
        · exact Or.inr ⟨_, rfl⟩
      · exact Or.inr ⟨_, rfl⟩
    · rw [if_neg h3]
      split_ifs
      · exact Or.inl rfl
      · exact Or.inr ⟨_, rfl⟩
  · rw [if_neg h2]
    exact Or.inr ⟨_, rfl⟩

theorem mem_of_contains_int (l : List Int) (x : Int) (h : l.contains x = true) : x ∈ l := by
  simpa using h

/-- The pending units of one scan are implied, when every clause has at most two
registrations and none holds a literal next to its negation. -/
theorem scanWatched_implied (n : Nat) (clss : Formula) (hwf : wellFormed n clss)
    (hnotaut : ∀ cls ∈ clss, ∀ v ∈ cls, -v ∉ cls) (a : Assignment) (target : Int)
    (ht : valAt a (varOf target) ≠ 0) :
    ∀ (fuel i : Nat) (W : WatchIndex) (units : List Int) (W1 : WatchIndex)
      (units1 : List Int), W.length = n + 1 → (∀ q, regCount W q ≤ 2) →
      scanWatched clss a target fuel i W units = some (Round.done W1 units1) →
      (∀ u ∈ units, unitImplied clss a u) → ∀ u ∈ units1, unitImplied clss a u := by
  intro fuel
  induction fuel with
  | zero => intro i W units W1 units1 _ _ h; simp [scanWatched] at h
  | succ fuel ih =>
    intro i W units W1 units1 hlen hcount h hunits
    rw [scanWatched] at h
    by_cases h1 : i < (watchersOf W (varOf target)).length
    · rw [if_pos h1] at h
      by_cases h2 : (clss.getD ((watchersOf W (varOf target)).getD i 0) []).contains
          (-target) = true
      · rw [if_pos h2] at h
        have hneg := mem_of_contains_int _ _ h2
        have hcls := getD_mem_of_mem clss _ _ hneg
        by_cases h3 : (updateWatchedLits a
            (clss.getD ((watchersOf W (varOf target)).getD i 0) [])
            ((watchersOf W (varOf target)).getD i 0) W).1 = 1
        · rw [if_pos h3] at h
          rcases updateLoop_cases a ((watchersOf W (varOf target)).getD i 0)
            (clss.getD ((watchersOf W (varOf target)).getD i 0) []) false W with
            ⟨_, v, hv, _, _, e2⟩ | ⟨e1, _⟩
          · have e3 : (updateWatchedLits a
                (clss.getD ((watchersOf W (varOf target)).getD i 0) [])
                ((watchersOf W (varOf target)).getD i 0) W).2 =
                pushWatch W (varOf v) ((watchersOf W (varOf target)).getD i 0) := e2
            rw [e3] at h
            have hstep : rewatchStep clss W (eraseWatch (pushWatch W (varOf v)
                ((watchersOf W (varOf target)).getD i 0)) (varOf target) i) :=
              ⟨varOf target, i, v, h1, hv, rfl⟩
            refine ih _ _ _ _ _ ?_ ?_ h hunits
            · rw [rewatchStep_length clss _ _ hstep, hlen]
            · intro q
              rw [rewatchStep_regCount n clss hwf _ _ hlen hstep q]
              exact hcount q
          · exact absurd h3 e1
        · rw [if_neg h3] at h
          by_cases h4 : (updateWatchedLits a
              (clss.getD ((watchersOf W (varOf target)).getD i 0) [])
              ((watchersOf W (varOf target)).getD i 0) W).1 = 2
          · rw [if_pos h4] at h
            obtain ⟨u, hu, huu, _, hothers, hfind⟩ := unit_of_answer_two a (varOf target)
              (clss.getD ((watchersOf W (varOf target)).getD i 0) [])
              ((watchersOf W (varOf target)).getD i 0) W ht
              (getD_mem_watchers _ _ h1) h4 (hcount _) (hnotaut _ hcls)
            rw [hfind] at h
            simp only at h
            by_cases h5 : units.contains (-u) = true
            · rw [if_pos h5] at h
              injection h with h
              cases h
            · rw [if_neg h5] at h
              refine ih _ _ _ _ _ hlen hcount h ?_
              intro w hw
              rcases mem_insertUnit u units w hw with rfl | hw1
              · exact ⟨_, hcls, hu, huu, hothers⟩
              · exact hunits w hw1
          · rw [if_neg h4] at h
            by_cases h6 : (updateWatchedLits a
                (clss.getD ((watchersOf W (varOf target)).getD i 0) [])
                ((watchersOf W (varOf target)).getD i 0) W).1 = -1
            · rw [if_pos h6] at h
              injection h with h
              cases h
            · rw [if_neg h6] at h
              exact ih _ _ _ _ _ hlen hcount h hunits
      · rw [if_neg h2] at h
        exact ih _ _ _ _ _ hlen hcount h hunits
    · rw [if_neg h1] at h
      injection h with h
      injection h with e1 e2
      subst e2
      exact hunits

theorem propagate_implied (n : Nat) (clss : Formula) (hwf : wellFormed n clss)
    (hnotaut : ∀ cls ∈ clss, ∀ v ∈ cls, -v ∉ cls) (a : Assignment) (fuel : Nat) :
    ∀ (targets : List Int) (W : WatchIndex) (units : List Int) (W1 : WatchIndex)
      (units1 : List Int), (∀ t ∈ targets, valAt a (varOf t) ≠ 0) →
      W.length = n + 1 → (∀ q, regCount W q ≤ 2) →
      propagate clss a fuel targets W units = some (Round.done W1 units1) →
      (∀ u ∈ units, unitImplied clss a u) → ∀ u ∈ units1, unitImplied clss a u := by
  intro targets
  induction targets with
  | nil =>
    intro W units W1 units1 _ _ _ h hunits
    simp only [propagate] at h
    injection h with h
    injection h with e1 e2
    subst e2
    exact hunits
  | cons t rest ih =>
    intro W units W1 units1 hts hlen hcount h hunits
    rw [propagate] at h
    cases hs : scanWatched clss a t fuel 0 W units with
    | none => rw [hs] at h; simp at h
    | some s =>
      rw [hs] at h
      cases s with
      | conflict W2 =>
        simp only at h
        injection h with h
        cases h
      | done W2 u2 =>
        simp only at h
        have hsteps : Relation.ReflTransGen (rewatchStep clss) W W2 :=
          (scanWatched_post clss a t fuel 0 W units _ hs).1
        have hlen2 : W2.length = n + 1 := by
          rw [steps_length clss W _ hsteps, hlen]
        have hcount2 : ∀ q, regCount W2 q ≤ 2 := by
          intro q
          have := steps_regCount n clss hwf W _ hlen hsteps q
          have h2 : regCount W2 q = regCount W q := this
          rw [h2]
          exact hcount q
        exact ih W2 u2 W1 units1 (fun u hu => hts u (List.mem_cons_of_mem _ hu)) hlen2 hcount2 h
          (scanWatched_implied n clss hwf hnotaut a t (hts t (List.mem_cons_self _ _))
            fuel 0 W units W2 u2 hlen hcount hs hunits)

theorem initWatchedLits_regCount_le_two (n : Nat) (clss : Formula) (a : Assignment) (p : Nat) :
    regCount (initWatchedLits clss a (List.replicate (n + 1) [])) p ≤ 2 := by
  unfold initWatchedLits
  have h := initFrom_regCount a p clss 0 (List.replicate (n + 1) [])
  have h0 : regCount (List.replicate (n + 1) []) p = 0 := sumOver_replicate_nil _ rfl _
  split_ifs at h <;> omega

/-! ## The claims -/

/-- C1 (soundness) fails on the code.  On three variables and the clauses `{2}`,
`{-3, -2}`, `{3}` the run of `main` prints `sat` for every sufficient amount of fuel,
and the assignment at which `solve` returned true binds every variable but makes
the clause `{-3, -2}` false; the formula has no satisfying assignment at all. -/
theorem main_reports_sat_with_falsified_clause :
    wellFormed 3 unitChain ∧ ascending unitChain ∧
    (∀ k, main (2 + k) 3 unitChain = some ⟨Verdict.sat, [0, 1, 1, 1]⟩) ∧
    allBound 3 [0, 1, 1, 1] ∧
    ¬ clauseTrue [0, 1, 1, 1] [-3, -2] ∧
    ¬ formulaTrue [0, 1, 1, 1] unitChain ∧
    ∀ a : Assignment, ¬ formulaTrue a unitChain := by
  refine ⟨by decide, by decide, fun k => main_mono_add 3 unitChain 2 _ (by decide) k, ?_,
    by decide, by decide, ?_⟩
  · intro i h1 h2
    interval_cases i <;> decide
  · intro a h
    have h2 := h [2] (by decide)
    have h3 := h [3] (by decide)
    have h23 := h [-3, -2] (by decide)
    simp only [clauseTrue, litTrue, List.mem_singleton, exists_eq_left, List.mem_cons,
      List.mem_nil_iff, or_false, exists_eq_or_imp] at h2 h3 h23
    have e2 : varOf (-2) = varOf 2 := by decide
    have e3 : varOf (-3) = varOf 3 := by decide
    rw [e2, e3] at h23
    omega

/-- C2 (completeness) fails on the code.  The formula `withTautology` over three
variables is true when all three variables are true, yet the run of `main` prints
`unsat` for every sufficient amount of fuel: its first clause holds `2` and `-2`, and
`updateWatchedLits` answers 2 for it while two of its literals are not decided. -/
theorem main_reports_unsat_on_satisfiable_formula :
    wellFormed 3 withTautology ∧ ascending withTautology ∧
    (∀ k, main (7 + k) 3 withTautology = some ⟨Verdict.unsat, [0, -1, 0, 0]⟩) ∧
    allBound 3 [0, 1, 1, 1] ∧ formulaTrue [0, 1, 1, 1] withTautology ∧
    updateWatchedLits [0, 1, 0, 0] [-2, -1, 2] 0 [[], [0, 1, 2, 3, 4], [0, 3], [1, 2, 4]] =
      (2, [[], [0, 1, 2, 3, 4], [0, 3], [1, 2, 4]]) := by
  refine ⟨by decide, by decide, fun k => main_mono_add 3 withTautology 7 _ (by decide) k, ?_,
    by decide, by decide⟩
  intro i h1 h2
  interval_cases i <;> decide

/-- C3: on a well-formed formula, `unitPropagation` started from the all-unassigned
assignment reports a conflict exactly when the formula holds two single-literal
clauses `{l}` and `{-l}`; and whenever it reports a conflict, `main` prints `unsat`
with any amount of fuel, zero included, so `chooseNext` and `solve` are not run, and
the assignment is the one `unitPropagation` left. -/
theorem unitPropagation_conflict_iff_opposite_units (numVariables : Nat) (clss : Formula)
    (hwf : wellFormed numVariables clss) :
    ((unitPropagation clss (List.replicate (numVariables + 1) 0)).1 = true ↔
      ∃ l : Int, [l] ∈ clss ∧ [-l] ∈ clss) ∧
    ((unitPropagation clss (List.replicate (numVariables + 1) 0)).1 = true →
      ∀ fuel, main fuel numVariables clss =
        some ⟨Verdict.unsat, (unitPropagation clss (List.replicate (numVariables + 1) 0)).2⟩) := by
  constructor
  · rw [unitPropagation_conflict_iff numVariables clss _ (List.length_replicate _ _) hwf]
    constructor
    · rintro ⟨l, hl, h | h⟩
      · rw [valAt_replicate_zero] at h
        simp at h
      · exact ⟨l, hl, h⟩
    · rintro ⟨l, hl, h⟩
      exact ⟨l, hl, Or.inr h⟩
  · intro h fuel
    unfold main
    rw [if_pos h]

/-- Scenario A is an instance of C3: both parts hold on `{{1}, {-1}}`. -/
theorem unitPropagation_conflict_iff_opposite_units_witness :
    wellFormed 1 scenarioA ∧
    (((unitPropagation scenarioA (List.replicate (1 + 1) 0)).1 = true ↔
      ∃ l : Int, [l] ∈ scenarioA ∧ [-l] ∈ scenarioA) ∧
    ((unitPropagation scenarioA (List.replicate (1 + 1) 0)).1 = true →
      ∀ fuel, main fuel 1 scenarioA =
        some ⟨Verdict.unsat, (unitPropagation scenarioA (List.replicate (1 + 1) 0)).2⟩)) :=
  ⟨by decide, unitPropagation_conflict_iff_opposite_units 1 scenarioA (by decide)⟩

/-- C4 (Scenario D) fails on the code.  On `{{1, 2, 3}}` with three variables
`pureLiteralElimination` binds every variable, so the loop of `chooseNext` in `main`
finds no unassigned variable and never ends: `main` prints nothing, whatever the
fuel.  The formula is satisfiable, as the claim says. -/
theorem scenarioD_main_never_returns :
    wellFormed 3 scenarioD ∧
    (unitPropagation scenarioD (List.replicate (3 + 1) 0)).1 = false ∧
    pureLiteralElimination 3 (parsePures 3 scenarioD)
      (unitPropagation scenarioD (List.replicate (3 + 1) 0)).2 = [0, 1, 1, 1] ∧
    formulaTrue [0, 1, 1, 1] scenarioD ∧
    (∀ fuel, chooseNext fuel 3 [0, 1, 1, 1] 0 = none) ∧
    ∀ fuel, main fuel 3 scenarioD = none := by
  have hup : (unitPropagation scenarioD (List.replicate (3 + 1) 0)).1 = false := by decide
  have hpre : pureLiteralElimination 3 (parsePures 3 scenarioD)
      (unitPropagation scenarioD (List.replicate (3 + 1) 0)).2 = [0, 1, 1, 1] := by decide
  have hch : ∀ fuel, chooseNext fuel 3 [0, 1, 1, 1] 0 = none := by
    intro fuel
    refine chooseLoop_all_assigned 3 [0, 1, 1, 1] ?_ fuel 1 (by omega) (by omega)
    intro i h1 h2
    interval_cases i <;> decide
  refine ⟨by decide, hup, hpre, by decide, hch, ?_⟩
  intro fuel
  unfold main
  rw [hup, hpre, hch fuel]
  simp

/-- C5 (Scenario E): for every `numVariables >= 1`, on the empty formula `main`
returns for every fuel from `2 * numVariables + 1` on, prints `sat`, and the
assignment at which `solve` returned true binds every variable. -/
theorem empty_formula_sat (numVariables : Nat) (hn : 1 ≤ numVariables) :
    parsePures numVariables [] = List.replicate (numVariables + 1) 0 ∧
    ∀ fuel, 2 * numVariables + 1 ≤ fuel →
      ∃ a, main fuel numVariables [] = some ⟨Verdict.sat, a⟩ ∧ allBound numVariables a := by
  refine ⟨rfl, ?_⟩
  intro fuel hfuel
  have hzero : ∀ i, valAt (List.replicate (numVariables + 1) (0 : Int)) i = 0 :=
    fun i => valAt_replicate_zero _ i
  have hpure : pureLiteralElimination numVariables (parsePures numVariables [])
      (List.replicate (numVariables + 1) 0) = List.replicate (numVariables + 1) 0 := by
    unfold pureLiteralElimination
    apply pureLoop_unseen
    intro i
    exact valAt_replicate_zero _ i
  have hch : chooseNext fuel numVariables (List.replicate (numVariables + 1) 0) 0 = some 1 := by
    unfold chooseNext
    exact chooseLoop_first numVariables _ 0 (by omega) (fun i h1 h2 => by omega) (hzero _)
      fuel 1 (by omega) (by omega) (by omega)
  obtain ⟨a, hsolve, hb⟩ := solve_empty_formula numVariables (numVariables - 1) 0 fuel
    (List.replicate (numVariables + 1) 0) (by omega) (by omega) (List.length_replicate _ _)
    (fun i h1 h2 => by omega) (fun i _ => hzero i)
  refine ⟨a, ?_, hb⟩
  have hsolve1 : solve numVariables [] fuel (List.replicate (numVariables + 1) 0)
      [((1 : Nat) : Int)] (List.replicate (numVariables + 1) []) =
      some ⟨true, a, List.replicate (numVariables + 1) []⟩ := hsolve
  unfold main
  simp only [unitPropagation, hpure, hch, initWatchedLits, initFrom, hsolve1]
  simp

/-- C5 at three variables. -/
theorem empty_formula_sat_witness :
    1 ≤ 3 ∧ (parsePures 3 [] = List.replicate (3 + 1) 0 ∧
    ∀ fuel, 2 * 3 + 1 ≤ fuel →
      ∃ a, main fuel 3 [] = some ⟨Verdict.sat, a⟩ ∧ allBound 3 a) :=
  ⟨by decide, empty_formula_sat 3 (by decide)⟩

/-- C6 (Scenario C): on the four clauses over two variables `unitPropagation` reports
no conflict and binds nothing, `pureLiteralElimination` binds nothing, the root call
of `solve` on variable 1 true returns false, the root call on variable 1 false (with
the watch index the first call left) returns false, and `main` prints `unsat`. -/
theorem scenarioC_unsat :
    unitPropagation scenarioC (List.replicate (2 + 1) 0) = (false, [0, 0, 0]) ∧
    parsePures 2 scenarioC = [0, 2, 2] ∧
    pureLiteralElimination 2 (parsePures 2 scenarioC) [0, 0, 0] = [0, 0, 0] ∧
    (∀ fuel, chooseNext (1 + fuel) 2 [0, 0, 0] 0 = some 1) ∧
    (∀ k, ∃ r1 r2,
      solve 2 scenarioC (5 + k) [0, 0, 0] [1]
        (initWatchedLits scenarioC [0, 0, 0] (List.replicate (2 + 1) [])) = some r1 ∧
      r1.ans = false ∧
      solve 2 scenarioC (5 + k) [0, 0, 0] [-1] r1.watched = some r2 ∧ r2.ans = false) ∧
    (∀ k, main (5 + k) 2 scenarioC = some ⟨Verdict.unsat, [0, -1, 0]⟩) ∧
    ∀ a : Assignment, ¬ formulaTrue a scenarioC := by
  refine ⟨by decide, by decide, by decide, ?_, ?_,
    fun k => main_mono_add 2 scenarioC 5 _ (by decide) k, ?_⟩
  · intro fuel
    rw [Nat.add_comm]
    rfl
  · intro k
    refine ⟨⟨false, [0, 1, 0], [[], [0, 1, 2, 3], [0, 1, 2, 3]]⟩,
      ⟨false, [0, -1, 0], [[], [0, 1, 2, 3], [0, 1, 2, 3]]⟩, ?_, rfl, ?_, rfl⟩
    · exact solve_mono_add 2 scenarioC 5 _ _ _ _ (by decide) k
    · exact solve_mono_add 2 scenarioC 5 _ _ _ _ (by decide) k
  · intro a h
    have h1 := h [1, 2] (by decide)
    have h2 := h [-2, -1] (by decide)
    have h3 := h [-2, 1] (by decide)
    have h4 := h [-1, 2] (by decide)
    simp only [clauseTrue, litTrue, List.mem_cons, List.mem_nil_iff, or_false,
      exists_eq_or_imp, exists_eq_left] at h1 h2 h3 h4
    have e1 : varOf (-1) = varOf 1 := by decide
    have e2 : varOf (-2) = varOf 2 := by decide
    rw [e1, e2] at h2
    rw [e2] at h3
    rw [e1] at h4
    omega

/-- C7 (Scenario B): on `{{1, 2}, {-1, 2}}` with two variables the polarity tracker
marks variable 1 Mixed (2) and variable 2 Positive-only (1), `pureLiteralElimination`
binds variable 2 to true and nothing else, that assignment already makes both
clauses true, and `main` prints `sat`. -/
theorem scenarioB_sat :
    parsePures 2 scenarioB = [0, 2, 1] ∧
    unitPropagation scenarioB (List.replicate (2 + 1) 0) = (false, [0, 0, 0]) ∧
    pureLiteralElimination 2 (parsePures 2 scenarioB) [0, 0, 0] = [0, 0, 1] ∧
    formulaTrue [0, 0, 1] scenarioB ∧
    (∀ k, main (4 + k) 2 scenarioB = some ⟨Verdict.sat, [0, 1, 1]⟩) ∧
    formulaTrue [0, 1, 1] scenarioB := by
  exact ⟨by decide, by decide, by decide, by decide,
    fun k => main_mono_add 2 scenarioB 4 _ (by decide) k, by decide⟩

/-- C8 as stated fails: with variable 1 not decided, variable 2 true and an empty
watch index, the clause `{1, 2}` has a true literal, yet `updateWatchedLits` meets
the unassigned, unregistered literal `1` first, registers the clause under
variable 1 and returns 1. -/
theorem updateWatchedLits_rewatch_before_true_literal :
    clauseTrue [0, 0, 1] [1, 2] ∧
    updateWatchedLits [0, 0, 1] [1, 2] 0 [[], [], []] = (1, [[], [0], []]) ∧
    (updateWatchedLits [0, 0, 1] [1, 2] 0 [[], [], []]).1 ≠ 3 := by
  exact ⟨by decide, by decide, by decide⟩

/-- C8 amended: if a literal `v` of the clause is true and every unassigned literal
that comes before it in the iteration order is already registered for this clause in
the watch index, then `updateWatchedLits` returns 3 and leaves the index unchanged. -/
theorem updateWatchedLits_satisfied (assgms : Assignment) (p : Nat) (W : WatchIndex)
    (cls pre post : List Int) (v : Int) (hcls : cls = pre ++ v :: post)
    (hv : litTrue assgms v)
    (hpre : ∀ u ∈ pre, litUnassigned assgms u → p ∈ watchersOf W (varOf u)) :
    updateWatchedLits assgms cls p W = (3, W) := by
  subst hcls
  exact updateLoop_three assgms p W v post hv pre false hpre

/-- C8 amended, on the clause `{1, 2}` registered under variable 1. -/
theorem updateWatchedLits_satisfied_witness :
    ([1, 2] : List Int) = [1] ++ 2 :: [] ∧ litTrue [0, 0, 1] 2 ∧
    (∀ u ∈ ([1] : List Int), litUnassigned [0, 0, 1] u → 0 ∈ watchersOf [[], [0], []] (varOf u)) ∧
    updateWatchedLits [0, 0, 1] [1, 2] 0 [[], [0], []] = (3, [[], [0], []]) :=
  ⟨rfl, by decide, by decide,
    updateWatchedLits_satisfied [0, 0, 1] 0 [[], [0], []] [1, 2] [1] [] 2 rfl (by decide)
      (by decide)⟩

/-- C9: `updateWatchedLits` returns -1 exactly when every literal of the clause has
its variable assigned and no literal is true; it returns -1 on the empty clause. -/
theorem updateWatchedLits_conflict_iff (assgms : Assignment) (cls : Clause) (p : Nat)
    (W : WatchIndex) :
    ((updateWatchedLits assgms cls p W).1 = -1 ↔
      ((∀ v ∈ cls, ¬ litUnassigned assgms v) ∧ ∀ v ∈ cls, ¬ litTrue assgms v)) ∧
    (updateWatchedLits assgms [] p W).1 = -1 := by
  constructor
  · unfold updateWatchedLits
    rw [updateLoop_minus_one]
    constructor
    · rintro ⟨_, h⟩
      exact ⟨fun v hv => (h v hv).1, fun v hv => (h v hv).2⟩
    · rintro ⟨h1, h2⟩
      exact ⟨rfl, fun v hv => ⟨h1 v hv, h2 v hv⟩⟩
  · rfl

/-- C10: if no literal of the clause is true, `u` is its only unassigned literal and
the clause is registered in the watch index under the variable of `u`, then
`updateWatchedLits` returns 2 and leaves the watch index unchanged. -/
theorem updateWatchedLits_unit (assgms : Assignment) (cls : Clause) (p : Nat)
    (W : WatchIndex) (u : Int)
    (hfalse : ∀ v ∈ cls, ¬ litTrue assgms v)
    (hu : u ∈ cls) (hun : litUnassigned assgms u)
    (honly : ∀ v ∈ cls, litUnassigned assgms v → v = u)
    (hreg : p ∈ watchersOf W (varOf u)) :
    updateWatchedLits assgms cls p W = (2, W) := by
  unfold updateWatchedLits
  apply updateLoop_two assgms p W cls false hfalse
  · intro v hv hvu
    rw [honly v hv hvu]
    exact hreg
  · exact Or.inr ⟨u, hu, hun⟩

/-- C10 on the clause `{1, 2}` with variable 1 false and the clause registered
under variable 2. -/
theorem updateWatchedLits_unit_witness :
    (∀ v ∈ ([1, 2] : List Int), ¬ litTrue [0, -1, 0] v) ∧
    (2 : Int) ∈ ([1, 2] : List Int) ∧ litUnassigned [0, -1, 0] 2 ∧
    (∀ v ∈ ([1, 2] : List Int), litUnassigned [0, -1, 0] v → v = 2) ∧
    0 ∈ watchersOf [[], [], [0]] (varOf 2) ∧
    updateWatchedLits [0, -1, 0] [1, 2] 0 [[], [], [0]] = (2, [[], [], [0]]) :=
  ⟨by decide, by decide, by decide, by decide, by decide,
    updateWatchedLits_unit [0, -1, 0] [1, 2] 0 [[], [], [0]] 2 (by decide) (by decide)
      (by decide) (by decide) (by decide)⟩

/-- C11 (watch initialisation) fails on the code.  On Scenario B the assignment left
by `unitPropagation` and `pureLiteralElimination` binds variable 2 to true, and
`initWatchedLits` on the empty watch index still registers both clauses under
variable 2: its test `assgms * v != -1` holds for the bound literal `2`. -/
theorem initWatchedLits_registers_under_assigned_variable :
    wellFormed 2 scenarioB ∧
    rootAssignment 2 scenarioB = [0, 0, 1] ∧
    initWatchedLits scenarioB (rootAssignment 2 scenarioB) (List.replicate (2 + 1) []) =
      [[], [0, 1], [0, 1]] ∧
    0 ∈ watchersOf (initWatchedLits scenarioB (rootAssignment 2 scenarioB)
      (List.replicate (2 + 1) [])) 2 ∧
    ¬ valAt (rootAssignment 2 scenarioB) 2 = 0 ∧
    valAt (rootAssignment 2 scenarioB) (varOf 2) * 2 ≠ -1 := by
  exact ⟨by decide, by decide, by decide, by decide, by decide, by decide⟩

/-- C12: for an assignment vector of `numVariables + 1` entries, after
`pureLiteralElimination` every variable in `1..numVariables` marked 1 is true, every
one marked -1 is false, and the entry of every variable with another mark (Unseen 0
and Mixed 2 among them) is unchanged; the vector keeps its size. -/
theorem pureLiteralElimination_post (numVariables : Nat) (pures : List Int)
    (assgms : Assignment) (hlen : assgms.length = numVariables + 1) :
    (pureLiteralElimination numVariables pures assgms).length = numVariables + 1 ∧
    ∀ i, 1 ≤ i → i ≤ numVariables →
      (pures.getD i 0 = 1 → valAt (pureLiteralElimination numVariables pures assgms) i = 1) ∧
      (pures.getD i 0 = -1 → valAt (pureLiteralElimination numVariables pures assgms) i = -1) ∧
      ((pures.getD i 0 = 0 ∨ pures.getD i 0 = 2) →
        valAt (pureLiteralElimination numVariables pures assgms) i = valAt assgms i) := by
  unfold pureLiteralElimination
  refine ⟨by rw [pureLoop_length, hlen], ?_⟩
  intro i h1 h2
  rw [pureLoop_valAt]
  refine ⟨?_, ?_, ?_⟩
  · intro h
    rw [if_pos ⟨h1, by omega, by omega, Or.inl h⟩, h]
  · intro h
    rw [if_pos ⟨h1, by omega, by omega, Or.inr h⟩, h]
  · intro h
    rw [if_neg]
    rintro ⟨_, _, _, h3 | h3⟩ <;> rcases h with h | h <;> omega

/-- C12 on Scenario B. -/
theorem pureLiteralElimination_post_witness :
    ([0, 0, 0] : Assignment).length = 2 + 1 ∧
    ((pureLiteralElimination 2 [0, 2, 1] [0, 0, 0]).length = 2 + 1 ∧
    ∀ i, 1 ≤ i → i ≤ 2 →
      (([0, 2, 1] : List Int).getD i 0 = 1 →
        valAt (pureLiteralElimination 2 [0, 2, 1] [0, 0, 0]) i = 1) ∧
      (([0, 2, 1] : List Int).getD i 0 = -1 →
        valAt (pureLiteralElimination 2 [0, 2, 1] [0, 0, 0]) i = -1) ∧
      ((([0, 2, 1] : List Int).getD i 0 = 0 ∨ ([0, 2, 1] : List Int).getD i 0 = 2) →
        valAt (pureLiteralElimination 2 [0, 2, 1] [0, 0, 0]) i = valAt [0, 0, 0] i)) :=
  ⟨rfl, pureLiteralElimination_post 2 [0, 2, 1] [0, 0, 0] rfl⟩

/-- C13: for every polarity tracker and assignment, `pureLiteralElimination` applied
twice gives the assignment it gives applied once. -/
theorem pureLiteralElimination_idempotent (numVariables : Nat) (pures : List Int)
    (assgms : Assignment) :
    pureLiteralElimination numVariables pures
        (pureLiteralElimination numVariables pures assgms) =
      pureLiteralElimination numVariables pures assgms := by
  unfold pureLiteralElimination
  exact pureLoop_idem pures numVariables 1 assgms

/-- C14 (watch invariant) fails on the code.  On `unitsThenTernary` with three
variables the first call of `solve` that `main` makes receives variables 2 and 3
bound to true by `unitPropagation`; the clause `{-3, -2, 1}` at address 2 is not
satisfied, its literal `1` is unassigned, and `initWatchedLits` has registered it
under the bound variables 3 and 2 only. -/
theorem watch_invariant_broken_at_root_call :
    wellFormed 3 unitsThenTernary ∧ ascending unitsThenTernary ∧
    (∀ fuel, (mainCalls (fuel + 1) 3 unitsThenTernary).head? =
      some ⟨0, [0, 0, 1, 1], [1], [[], [3], [0, 2, 3], [1, 2]]⟩) ∧
    ¬ watchInvariant unitsThenTernary [0, 0, 1, 1] [[], [3], [0, 2, 3], [1, 2]] ∧
    ¬ clauseTrue [0, 0, 1, 1] (unitsThenTernary.getD 2 []) ∧
    (1 : Int) ∈ unitsThenTernary.getD 2 [] ∧ litUnassigned [0, 0, 1, 1] 1 ∧
    (∀ x, 2 ∈ watchersOf [[], [3], [0, 2, 3], [1, 2]] x → valAt [0, 0, 1, 1] x ≠ 0) := by
  refine ⟨by decide, by decide, ?_, by decide, by decide, by decide, by decide, ?_⟩
  · intro fuel
    have hroot : rootAssignment 3 unitsThenTernary = [0, 0, 1, 1] := by decide
    have hup : (unitPropagation unitsThenTernary (List.replicate (3 + 1) 0)).1 = false := by
      decide
    have hinit : initWatchedLits unitsThenTernary [0, 0, 1, 1] (List.replicate (3 + 1) []) =
        [[], [3], [0, 2, 3], [1, 2]] := by decide
    have hch : chooseNext (fuel + 1) 3 [0, 0, 1, 1] 0 = some 1 := rfl
    unfold mainCalls
    rw [hup, hroot, hch, hinit]
    simp only [Bool.false_eq_true, if_false]
    rw [List.head?_append_of_ne_nil]
    · exact solveCalls_head _ _ _ _ _ _ _
    · intro hnil
      have := solveCalls_head 3 unitsThenTernary (fuel + 1) 0 [0, 0, 1, 1] [((1 : Nat) : Int)]
        [[], [3], [0, 2, 3], [1, 2]]
      rw [hnil] at this
      cases this
  · intro x hx
    have hlt : x < 4 := lt_length_of_mem_watchers _ x 2 hx
    interval_cases x
    · exact absurd hx (by decide)
    · exact absurd hx (by decide)
    · decide
    · decide

/-- C15: in every activation of `solve` entered from `main`, the variable of each
target is unassigned in the assignment the activation received, so the assignment
it passes to its recursive calls agrees with the received one on every variable
that was already bound. -/
theorem targets_unassigned_at_entry (numVariables fuel : Nat) (clss : Formula) (c : Call)
    (hc : c ∈ mainCalls fuel numVariables clss) :
    (∀ t ∈ c.targets, valAt c.assgms (varOf t) = 0) ∧
    ∀ i, valAt c.assgms i ≠ 0 →
      valAt (applyTargets numVariables c.targets c.assgms).2 i = valAt c.assgms i := by
  have hP : ∀ t ∈ c.targets, valAt c.assgms (varOf t) = 0 := by
    refine mainCalls_induction numVariables clss
      (fun c => ∀ t ∈ c.targets, valAt c.assgms (varOf t) = 0) ?_ ?_ ?_ fuel c hc
    · intro fuel x s W hch hs t ht
      have hts : t = s := by simpa using ht
      subst hts
      have hvar : varOf t = x := by
        rcases hs with rfl | rfl
        · exact varOf_natCast x
        · exact varOf_neg_natCast x
      rw [hvar]
      exact chooseLoop_some_unassigned _ _ _ _ _ hch
    · intro fuel d a ts W W1 units _ _ hp _ _ u hu
      rcases (propagate_post clss _ fuel ts W [] _ hp).2 W1 units rfl u hu with h | h
      · cases h
      · exact h.1
    · intro fuel d a ts W W2 x s _ _ _ hch hs t ht
      have hts : t = s := by simpa using ht
      subst hts
      have hvar : varOf t = x := by
        rcases hs with rfl | rfl
        · exact varOf_natCast x
        · exact varOf_neg_natCast x
      rw [hvar]
      exact chooseLoop_some_unassigned _ _ _ _ _ hch
  refine ⟨hP, ?_⟩
  intro i hi
  apply applyTargets_untouched
  intro t ht hvar
  apply hi
  rw [← hvar]
  exact hP t ht

/-- C15 at the nested call of the run on `withTautology`. -/
theorem targets_unassigned_at_entry_witness :
    (⟨1, [0, 1, 0, 0], [-2], [[], [0, 1, 2], [0, 3, 4], [1, 2, 4, 3]]⟩ : Call) ∈
      mainCalls 7 3 withTautology ∧
    ((∀ t ∈ ([-2] : List Int), valAt [0, 1, 0, 0] (varOf t) = 0) ∧
    ∀ i, valAt [0, 1, 0, 0] i ≠ 0 →
      valAt (applyTargets 3 [-2] [0, 1, 0, 0]).2 i = valAt [0, 1, 0, 0] i) :=
  ⟨by decide,
    targets_unassigned_at_entry 3 7 withTautology
      ⟨1, [0, 1, 0, 0], [-2], [[], [0, 1, 2], [0, 3, 4], [1, 2, 4, 3]]⟩ (by decide)⟩

/-- C16: if some variable in `1..numVariables` is not decided, `chooseNext(assgms, 0)`
returns, for every fuel from `c` on, the smallest index `c` in `1..numVariables`
whose entry is 0. -/
theorem chooseNext_smallest_unassigned (numVariables : Nat) (assgms : Assignment)
    (h : ∃ i, 1 ≤ i ∧ i ≤ numVariables ∧ valAt assgms i = 0) :
    ∃ c, 1 ≤ c ∧ c ≤ numVariables ∧ valAt assgms c = 0 ∧
      (∀ j, 1 ≤ j → j < c → valAt assgms j ≠ 0) ∧
      ∀ fuel, c ≤ fuel → chooseNext fuel numVariables assgms 0 = some c := by
  classical
  have hspec := Nat.find_spec h
  have hmin := fun j => @Nat.find_min _ _ h j
  obtain ⟨k, hk⟩ : ∃ k, Nat.find h = k + 1 := ⟨Nat.find h - 1, by omega⟩
  rw [hk] at hspec
  have hlow : ∀ j, 1 ≤ j → j < k + 1 → valAt assgms j ≠ 0 := by
    intro j h1 h2 h0
    exact hmin j (by omega) ⟨h1, by omega, h0⟩
  refine ⟨k + 1, hspec.1, hspec.2.1, hspec.2.2, hlow, ?_⟩
  intro fuel hfuel
  unfold chooseNext
  exact chooseLoop_first numVariables assgms k hspec.2.1 (fun i h1 h2 => hlow i h1 (by omega))
    hspec.2.2 fuel 1 (by omega) (by omega) (by omega)

/-- C16 on three variables with the first one decided. -/
theorem chooseNext_smallest_unassigned_witness :
    (∃ i, 1 ≤ i ∧ i ≤ 3 ∧ valAt [0, 1, 0, 0] i = 0) ∧
    ∃ c, 1 ≤ c ∧ c ≤ 3 ∧ valAt [0, 1, 0, 0] c = 0 ∧
      (∀ j, 1 ≤ j → j < c → valAt [0, 1, 0, 0] j ≠ 0) ∧
      ∀ fuel, c ≤ fuel → chooseNext fuel 3 [0, 1, 0, 0] 0 = some c :=
  ⟨⟨2, by decide⟩, chooseNext_smallest_unassigned 3 [0, 1, 0, 0] ⟨2, by decide⟩⟩

/-- C17: on a well-formed formula, with the polarity tracker that the parser
computes from it and an assignment vector of `numVariables + 1` entries, after
`pureLiteralElimination` every literal of the formula whose variable is marked
Positive-only (1) or Negative-only (-1) is true, so its clause is true. -/
theorem pure_literals_are_true (numVariables : Nat) (clss : Formula) (assgms : Assignment)
    (hwf : wellFormed numVariables clss) (hlen : assgms.length = numVariables + 1) :
    ∀ cls ∈ clss, ∀ v ∈ cls,
      ((parsePures numVariables clss).getD (varOf v) 0 = 1 ∨
        (parsePures numVariables clss).getD (varOf v) 0 = -1) →
      litTrue (pureLiteralElimination numVariables (parsePures numVariables clss) assgms) v ∧
      clauseTrue (pureLiteralElimination numVariables (parsePures numVariables clss) assgms)
        cls := by
  intro cls hcls v hv hpure
  have hv0 := (hwf cls hcls v hv).1
  have hvn := (hwf cls hcls v hv).2
  have hmark := parsePures_marks numVariables clss hwf cls hcls v hv
  have hpost := (pureLoop_marked_value numVariables (parsePures numVariables clss)
    assgms hlen (varOf v) (varOf_pos_of_ne_zero v hv0) hvn hpure)
  have hsign : (parsePures numVariables clss).getD (varOf v) 0 = signOf v := by
    rcases hmark with h | h
    · exact h
    · rcases hpure with h1 | h1 <;> omega
  have htrue : litTrue (pureLiteralElimination numVariables (parsePures numVariables clss)
      assgms) v := by
    unfold litTrue
    rw [hpost, hsign]
    exact signOf_mul_self v hv0
  exact ⟨htrue, v, hv, htrue⟩

/-- C17 on Scenario B, at the literal `2` of the first clause. -/
theorem pure_literals_are_true_witness :
    wellFormed 2 scenarioB ∧ ([0, 0, 0] : Assignment).length = 2 + 1 ∧
    ((parsePures 2 scenarioB).getD (varOf 2) 0 = 1 ∨
      (parsePures 2 scenarioB).getD (varOf 2) 0 = -1) ∧
    litTrue (pureLiteralElimination 2 (parsePures 2 scenarioB) [0, 0, 0]) 2 ∧
    clauseTrue (pureLiteralElimination 2 (parsePures 2 scenarioB) [0, 0, 0]) [1, 2] :=
  ⟨by decide, rfl, by decide,
    pure_literals_are_true 2 scenarioB [0, 0, 0] (by decide) rfl [1, 2] (by decide) 2
      (by decide) (by decide)⟩

/-- C18: on a well-formed formula, after `initWatchedLits` on the empty watch index
every clause has at most two registrations, each under the variable of one of its
literals; every call of `solve` that returns changes the index only by moves of
registrations and leaves, for each clause, as many registrations as it found, under
variables of the clause.  In the loop of `solve`, on the answer 1 of
`updateWatchedLits` the loop continues at the same position with an index that has
the clause appended under the variable of an unassigned literal, the entry under the
iterator in the list of the target's variable erased, and every other list as before;
on every other answer, and for a clause without the negation of the target, the loop
ends in a conflict or advances with the index unchanged. -/
theorem watch_registrations_are_moved (numVariables : Nat) (clss : Formula)
    (hwf : wellFormed numVariables clss) :
    (∀ (a : Assignment) (p : Nat),
      regCount (initWatchedLits clss a (List.replicate (numVariables + 1) [])) p ≤ 2) ∧
    (∀ a : Assignment,
      ownVars clss (initWatchedLits clss a (List.replicate (numVariables + 1) []))) ∧
    (∀ (fuel : Nat) (a : Assignment) (targets : List Int) (W : WatchIndex) (r : SolveResult),
      W.length = numVariables + 1 → solve numVariables clss fuel a targets W = some r →
        r.watched.length = numVariables + 1 ∧
        (∀ p, regCount r.watched p = regCount W p) ∧
        (ownVars clss W → ownVars clss r.watched)) ∧
    (∀ (a : Assignment) (cls : Clause) (p : Nat) (W : WatchIndex),
      ((updateWatchedLits a cls p W).1 = 1 →
        ∃ v ∈ cls, litUnassigned a v ∧ p ∉ watchersOf W (varOf v) ∧
          (updateWatchedLits a cls p W).2 = pushWatch W (varOf v) p) ∧
      ((updateWatchedLits a cls p W).1 ≠ 1 → (updateWatchedLits a cls p W).2 = W)) ∧
    (∀ (W : WatchIndex) (x p q : Nat), x < W.length →
      regCount (pushWatch W x p) q = regCount W q + (if p = q then 1 else 0)) ∧
    (∀ (W : WatchIndex) (x i q : Nat), i < (watchersOf W x).length →
      regCount (eraseWatch W x i) q + (if (watchersOf W x).getD i 0 = q then 1 else 0) =
        regCount W q) ∧
    (∀ (fuel : Nat) (a : Assignment) (targets : List Int) (W : WatchIndex) (r : SolveResult),
      solve numVariables clss fuel a targets W = some r →
        Relation.ReflTransGen (rewatchStep clss) W r.watched) ∧
    (∀ (a : Assignment) (target : Int) (i : Nat) (W : WatchIndex),
      W.length = numVariables + 1 → valAt a (varOf target) ≠ 0 →
      i < (watchersOf W (varOf target)).length →
      (clss.getD ((watchersOf W (varOf target)).getD i 0) []).contains (-target) = true →
      (updateWatchedLits a (clss.getD ((watchersOf W (varOf target)).getD i 0) [])
        ((watchersOf W (varOf target)).getD i 0) W).1 = 1 →
      ∃ v ∈ clss.getD ((watchersOf W (varOf target)).getD i 0) [], ∃ W1 : WatchIndex,
        W1 = eraseWatch (pushWatch W (varOf v) ((watchersOf W (varOf target)).getD i 0))
          (varOf target) i ∧
        litUnassigned a v ∧ varOf v ≠ varOf target ∧
        (∀ (fuel : Nat) (units : List Int),
          scanWatched clss a target (fuel + 1) i W units =
            scanWatched clss a target fuel i W1 units) ∧
        watchersOf W1 (varOf v) =
          watchersOf W (varOf v) ++ [(watchersOf W (varOf target)).getD i 0] ∧
        watchersOf W1 (varOf target) = (watchersOf W (varOf target)).eraseIdx i ∧
        (∀ z, z ≠ varOf v → z ≠ varOf target → watchersOf W1 z = watchersOf W z) ∧
        ∀ q, regCount W1 q = regCount W q) ∧
    (∀ (a : Assignment) (target : Int) (i : Nat) (W : WatchIndex),
      i < (watchersOf W (varOf target)).length →
      ((clss.getD ((watchersOf W (varOf target)).getD i 0) []).contains (-target) = false ∨
        (updateWatchedLits a (clss.getD ((watchersOf W (varOf target)).getD i 0) [])
          ((watchersOf W (varOf target)).getD i 0) W).1 ≠ 1) →
      ∀ (fuel : Nat) (units : List Int),
        scanWatched clss a target (fuel + 1) i W units = some (Round.conflict W) ∨
        ∃ units1, scanWatched clss a target (fuel + 1) i W units =
          scanWatched clss a target fuel (i + 1) W units1) := by
  refine ⟨fun a p => initWatchedLits_regCount_le_two numVariables clss a p, ?_, ?_, ?_,
    regCount_pushWatch, regCount_eraseWatch, solve_steps numVariables clss, ?_, ?_⟩
  · intro a
    unfold initWatchedLits
    apply initFrom_ownVars clss a clss 0 _ _ (ownVars_replicate clss _)
    intro k _
    rw [Nat.zero_add]
  · intro fuel a targets W r hlen hsolve
    have hsteps := solve_steps numVariables clss fuel a targets W r hsolve
    exact ⟨by rw [steps_length clss W _ hsteps, hlen],
      fun p => steps_regCount numVariables clss hwf W _ hlen hsteps p,
      steps_ownVars clss W _ hsteps⟩
  · intro a cls p W
    unfold updateWatchedLits
    rcases updateLoop_cases a p cls false W with ⟨e1, h⟩ | ⟨e1, e2⟩
    · exact ⟨fun _ => h, fun hne => absurd e1 hne⟩
    · exact ⟨fun h1 => absurd h1 e1, fun _ => e2⟩
  · intro a target i W hlen hassigned hi hcont hone
    obtain ⟨v, hv, hvu, _, hstep⟩ := scanWatched_rewatch_step clss a target i W hi hcont hone
    have hne : varOf v ≠ varOf target := by
      intro h
      unfold litUnassigned at hvu
      rw [h] at hvu
      exact hassigned hvu
    have hy : varOf v < W.length := by
      rw [hlen]
      exact Nat.lt_succ_of_le (hwf _ (getD_mem_of_mem clss _ _ hv) v hv).2
    obtain ⟨l1, l2, l3⟩ := rewatch_lists W (varOf target) (varOf v) i hne hy hi
    refine ⟨v, hv, _, rfl, hvu, hne, hstep, l1, l2, l3, ?_⟩
    intro q
    exact rewatchStep_regCount numVariables clss hwf W _ hlen
      ⟨varOf target, i, v, hi, hv, rfl⟩ q
  · intro a target i W hi hcase fuel units
    rcases hcase with hnc | hne
    · right
      refine ⟨units, ?_⟩
      rw [scanWatched, if_pos hi, if_neg (by rw [hnc]; decide)]
    · exact scanWatched_other_step clss a target i W hi hne fuel units

/-- C18 on the first root call of the run on `withTautology`: the clause `{-1, 2, 3}`
at address 3 is moved from variable 1 to variable 3, and the index that `solve`
leaves differs from the one it found while every clause keeps its count. -/
theorem watch_registrations_are_moved_witness :
    wellFormed 3 withTautology ∧
    initWatchedLits withTautology [0, 0, 0, 0] (List.replicate (3 + 1) []) =
      [[], [0, 1, 2, 3, 4], [0, 3], [1, 2, 4]] ∧
    (∀ p, regCount (initWatchedLits withTautology [0, 0, 0, 0] (List.replicate (3 + 1) [])) p
      ≤ 2) ∧
    solve 3 withTautology 7 [0, 0, 0, 0] [1] [[], [0, 1, 2, 3, 4], [0, 3], [1, 2, 4]] =
      some ⟨false, [0, 1, -1, 0], [[], [0, 1, 2], [0, 3, 4], [1, 2, 4, 3]]⟩ ∧
    (∀ p, regCount [[], [0, 1, 2], [0, 3, 4], [1, 2, 4, 3]] p =
      regCount [[], [0, 1, 2, 3, 4], [0, 3], [1, 2, 4]] p) ∧
    (watchersOf [[], [0, 1, 2, 3, 4], [0, 3], [1, 2, 4]] (varOf 1)).getD 3 0 = 3 ∧
    (updateWatchedLits [0, 1, 0, 0] (withTautology.getD 3 []) 3
      [[], [0, 1, 2, 3, 4], [0, 3], [1, 2, 4]]).1 = 1 ∧
    (∃ v ∈ withTautology.getD
        ((watchersOf [[], [0, 1, 2, 3, 4], [0, 3], [1, 2, 4]] (varOf 1)).getD 3 0) [],
      ∃ W1 : WatchIndex,
        W1 = eraseWatch (pushWatch [[], [0, 1, 2, 3, 4], [0, 3], [1, 2, 4]] (varOf v)
          ((watchersOf [[], [0, 1, 2, 3, 4], [0, 3], [1, 2, 4]] (varOf 1)).getD 3 0))
          (varOf 1) 3 ∧
        litUnassigned [0, 1, 0, 0] v ∧ varOf v ≠ varOf 1 ∧
        (∀ (fuel : Nat) (units : List Int),
          scanWatched withTautology [0, 1, 0, 0] 1 (fuel + 1) 3
              [[], [0, 1, 2, 3, 4], [0, 3], [1, 2, 4]] units =
            scanWatched withTautology [0, 1, 0, 0] 1 fuel 3 W1 units) ∧
        watchersOf W1 (varOf v) =
          watchersOf [[], [0, 1, 2, 3, 4], [0, 3], [1, 2, 4]] (varOf v) ++
            [(watchersOf [[], [0, 1, 2, 3, 4], [0, 3], [1, 2, 4]] (varOf 1)).getD 3 0] ∧
        watchersOf W1 (varOf 1) =
          (watchersOf [[], [0, 1, 2, 3, 4], [0, 3], [1, 2, 4]] (varOf 1)).eraseIdx 3 ∧
        (∀ z, z ≠ varOf v → z ≠ varOf 1 →
          watchersOf W1 z = watchersOf [[], [0, 1, 2, 3, 4], [0, 3], [1, 2, 4]] z) ∧
        ∀ q, regCount W1 q = regCount [[], [0, 1, 2, 3, 4], [0, 3], [1, 2, 4]] q) := by
  obtain ⟨t1, _, t3, _, _, _, _, t8, _⟩ :=
    watch_registrations_are_moved 3 withTautology (by decide)
  exact ⟨by decide, by decide, t1 [0, 0, 0, 0], by decide,
    (t3 7 [0, 0, 0, 0] [1] [[], [0, 1, 2, 3, 4], [0, 3], [1, 2, 4]]
      ⟨false, [0, 1, -1, 0], [[], [0, 1, 2], [0, 3, 4], [1, 2, 4, 3]]⟩ rfl (by decide)).2.1,
    by decide, by decide,
    t8 [0, 1, 0, 0] 1 3 [[], [0, 1, 2, 3, 4], [0, 3], [1, 2, 4]] rfl (by decide) (by decide)
      (by decide) (by decide)⟩

/-- C19: on a well-formed formula, for every watch index, every assignment vector of
`numVariables + 1` entries and every non-empty target list whose variables are in
range and unassigned, `solve` returns, with one result for every sufficient fuel;
every activation passes to its recursive calls an assignment with strictly fewer
unassigned variables than it received, and the nesting depth of an activation stays
below the number of variables that were unassigned at the start. -/
theorem solve_terminates_within_unassigned (numVariables : Nat) (clss : Formula)
    (assgms : Assignment) (targets : List Int) (W : WatchIndex)
    (hwf : wellFormed numVariables clss) (hlen : assgms.length = numVariables + 1)
    (hne : targets ≠ [])
    (hts : ∀ t ∈ targets, 1 ≤ varOf t ∧ varOf t ≤ numVariables ∧ valAt assgms (varOf t) = 0) :
    (∃ r, ∀ fuel, unassignedCount numVariables assgms + totalLen W + numVariables + 2 ≤ fuel →
      solve numVariables clss fuel assgms targets W = some r) ∧
    ∀ (fuel d : Nat), ∀ c ∈ solveCalls numVariables clss fuel d assgms targets W,
      unassignedCount numVariables (applyTargets numVariables c.targets c.assgms).2 <
        unassignedCount numVariables c.assgms ∧
      c.depth + unassignedCount numVariables c.assgms ≤
        d + unassignedCount numVariables assgms ∧
      c.depth < d + unassignedCount numVariables assgms := by
  constructor
  · obtain ⟨r, hr⟩ := solve_terminates numVariables clss hwf
      (unassignedCount numVariables assgms)
      (unassignedCount numVariables assgms + totalLen W + numVariables + 2) assgms targets W hlen
      (applyTargets_count_le numVariables numVariables targets assgms) (Nat.le_refl _)
    refine ⟨r, ?_⟩
    intro fuel hfuel
    obtain ⟨k, rfl⟩ : ∃ k, fuel =
        unassignedCount numVariables assgms + totalLen W + numVariables + 2 + k :=
      ⟨fuel - (unassignedCount numVariables assgms + totalLen W + numVariables + 2), by omega⟩
    exact solve_mono_add numVariables clss _ assgms targets W r hr k
  · intro fuel d c hc
    have hP := solveCalls_induction numVariables clss
      (fun c => c.assgms.length = numVariables + 1 ∧ c.targets ≠ [] ∧
        (∀ t ∈ c.targets, 1 ≤ varOf t ∧ varOf t ≤ numVariables ∧
          valAt c.assgms (varOf t) = 0) ∧
        c.depth + unassignedCount numVariables c.assgms ≤
          d + unassignedCount numVariables assgms) ?_ ?_ fuel d assgms targets W
      ⟨hlen, hne, hts, Nat.le_refl _⟩ c hc
    · obtain ⟨p1, p2, p3, p4⟩ := hP
      have hlt := applyTargets_count_lt numVariables c.targets c.assgms p1 p2 p3
      exact ⟨by omega, p4, by omega⟩
    · intro fuel1 d1 a ts W0 W1 units hPc _ hp _ hunits
      obtain ⟨p1, p2, p3, p4⟩ := hPc
      have hlt := applyTargets_count_lt numVariables ts a p1 p2 p3
      refine ⟨by rw [applyTargets_length]; exact p1, ?_,
        propagate_units numVariables clss hwf _ fuel1 ts W0 W1 units hp, ?_⟩
      · intro he
        have he1 : units = [] := he
        rw [he1] at hunits
        exact hunits rfl
      · show d1 + 1 + unassignedCount numVariables (applyTargets numVariables ts a).2 ≤ _
        have p4s : d1 + unassignedCount numVariables a ≤
            d + unassignedCount numVariables assgms := p4
        omega
    · intro fuel1 d1 a ts W0 W2 x s hPc _ hnot hch hs
      obtain ⟨p1, p2, p3, p4⟩ := hPc
      have hlt := applyTargets_count_lt numVariables ts a p1 p2 p3
      have hlen1 : (applyTargets numVariables ts a).2.length = numVariables + 1 := by
        rw [applyTargets_length]; exact p1
      have hn : 1 ≤ numVariables := by
        cases ts with
        | nil => exact absurd rfl p2
        | cons t ts =>
          have := p3 t (List.mem_cons_self _ _)
          omega
      have hx := chooseLoop_some numVariables _ _ _ _ hch (Nat.le_refl _) hn
      have hvar : varOf s = x := by
        rcases hs with rfl | rfl
        · exact varOf_natCast x
        · exact varOf_neg_natCast x
      refine ⟨hlen1, by simp, ?_, ?_⟩
      · intro t ht
        have hts1 : t = s := by simpa using ht
        subst hts1
        rw [hvar]
        exact ⟨hx.2.1, hx.2.2, hx.1⟩
      · show d1 + 1 + unassignedCount numVariables (applyTargets numVariables ts a).2 ≤ _
        have p4s : d1 + unassignedCount numVariables a ≤
            d + unassignedCount numVariables assgms := p4
        omega

/-- C19 at the first root call of the run on `withTautology`. -/
theorem solve_terminates_within_unassigned_witness :
    wellFormed 3 withTautology ∧ ([0, 0, 0, 0] : Assignment).length = 3 + 1 ∧
    ([1] : List Int) ≠ [] ∧
    (∀ t ∈ ([1] : List Int), 1 ≤ varOf t ∧ varOf t ≤ 3 ∧ valAt [0, 0, 0, 0] (varOf t) = 0) ∧
    ((∃ r, ∀ fuel,
      unassignedCount 3 [0, 0, 0, 0] + totalLen [[], [0, 1, 2, 3, 4], [0, 3], [1, 2, 4]] + 3 + 2 ≤
        fuel →
      solve 3 withTautology fuel [0, 0, 0, 0] [1] [[], [0, 1, 2, 3, 4], [0, 3], [1, 2, 4]] =
        some r) ∧
    ∀ (fuel d : Nat), ∀ c ∈ solveCalls 3 withTautology fuel d [0, 0, 0, 0] [1]
        [[], [0, 1, 2, 3, 4], [0, 3], [1, 2, 4]],
      unassignedCount 3 (applyTargets 3 c.targets c.assgms).2 < unassignedCount 3 c.assgms ∧
      c.depth + unassignedCount 3 c.assgms ≤ d + unassignedCount 3 [0, 0, 0, 0] ∧
      c.depth < d + unassignedCount 3 [0, 0, 0, 0]) :=
  ⟨by decide, rfl, by decide, by decide,
    solve_terminates_within_unassigned 3 withTautology [0, 0, 0, 0] [1]
      [[], [0, 1, 2, 3, 4], [0, 3], [1, 2, 4]] (by decide) rfl (by decide) (by decide)⟩

/-- C20: in `solve`, after the first loop has bound the targets, let `target` be one
of them and let the clause `cls` at address `p` be registered under the variable of
`target`.  If `updateWatchedLits` answers 2 for it, the clause has at most two
registrations and holds no literal together with its negation, then exactly one
literal `u` of the clause is unassigned and every other literal is false; when the
iterator of the loop of `solve` stands on that clause, the loop reports a conflict if
`-u` is among the pending units and otherwise goes on with `u` inserted in them.
For a whole round on a well-formed formula without such clauses and with at most two
registrations per clause, every pending unit that the round hands to the recursive
call of `solve` is implied in this sense. -/
theorem recorded_unit_is_implied (numVariables : Nat) (a0 : Assignment) (targets : List Int)
    (target : Int) (cls : Clause) (p : Nat) (W : WatchIndex)
    (hlen : a0.length = numVariables + 1)
    (happ : (applyTargets numVariables targets a0).1 = true)
    (ht : target ∈ targets)
    (hreg : p ∈ watchersOf W (varOf target))
    (hneg : -target ∈ cls)
    (htwo : (updateWatchedLits (applyTargets numVariables targets a0).2 cls p W).1 = 2)
    (hcount : regCount W p ≤ 2)
    (hnotaut : ∀ v ∈ cls, -v ∉ cls) :
    (∃ u ∈ cls, litUnassigned (applyTargets numVariables targets a0).2 u ∧
      (∀ v ∈ cls, litUnassigned (applyTargets numVariables targets a0).2 v → v = u) ∧
      (∀ v ∈ cls, v ≠ u → litFalse (applyTargets numVariables targets a0).2 v) ∧
      litFalse (applyTargets numVariables targets a0).2 (-target) ∧
      cls.find? (fun v => decide (valAt (applyTargets numVariables targets a0).2 (varOf v) = 0)) =
        some u ∧
      ∀ (clss : Formula) (i : Nat), i < (watchersOf W (varOf target)).length →
        (watchersOf W (varOf target)).getD i 0 = p → clss.getD p [] = cls →
        ∀ (fuel : Nat) (units : List Int),
          scanWatched clss (applyTargets numVariables targets a0).2 target (fuel + 1) i W units =
            (if units.contains (-u) then some (Round.conflict W)
             else scanWatched clss (applyTargets numVariables targets a0).2 target fuel (i + 1) W
              (insertUnit u units)) ∧
          u ∈ insertUnit u units) ∧
    ∀ (clss : Formula) (fuel : Nat) (W0 W1 : WatchIndex) (units : List Int),
      wellFormed numVariables clss → (∀ c ∈ clss, ∀ v ∈ c, -v ∉ c) →
      W0.length = numVariables + 1 → (∀ q, regCount W0 q ≤ 2) →
      propagate clss (applyTargets numVariables targets a0).2 fuel targets W0 [] =
        some (Round.done W1 units) →
      (∀ w ∈ units, unitImplied clss (applyTargets numVariables targets a0).2 w) ∧
      (AllSatisfied (applyTargets numVariables targets a0).2 = false → units.length ≠ 0 →
        solve numVariables clss (fuel + 1) a0 targets W0 =
          solve numVariables clss fuel (applyTargets numVariables targets a0).2 units W1) := by
  have hall := applyTargets_assigns numVariables targets a0 hlen happ
  have hassigned := hall target ht
  obtain ⟨u, hu, huu, huniq, hothers, hfind⟩ :=
    unit_of_answer_two _ (varOf target) cls p W hassigned hreg htwo hcount hnotaut
  constructor
  · refine ⟨u, hu, huu, huniq, hothers, ?_, hfind, ?_⟩
    · apply hothers _ hneg
      intro he
      unfold litUnassigned at huu
      rw [← he, varOf_neg] at huu
      exact hassigned huu
    · intro clss i hi hp hcls fuel units
      refine ⟨?_, mem_insertUnit_self u units⟩
      subst hp
      subst hcls
      exact scanWatched_unit_step clss _ target i W u hi (by simpa using hneg) htwo hfind
        fuel units
  · intro clss fuel W0 W1 units hwf hnt hlen0 hcount0 hp
    constructor
    · intro w hw
      exact propagate_implied numVariables clss hwf hnt _ fuel targets W0 [] W1 units hall
        hlen0 hcount0 hp (fun x hx => by cases hx) w hw
    · intro hnot hunits
      rw [solve, if_neg (by rw [happ]; decide), hp]
      simp only
      rw [if_neg (by rw [hnot]; decide), if_pos hunits]

/-- C20 on the first root call of the run on `implicationCycle`: variable 1 has just
been bound to true, the clause `{-1, 2}` at address 0 answers 2, its unit is `2`, and
the round hands `[2]` to the recursive call. -/
theorem recorded_unit_is_implied_witness :
    ([0, 0, 0, 0] : Assignment).length = 3 + 1 ∧
    (applyTargets 3 [1] [0, 0, 0, 0]).1 = true ∧
    (applyTargets 3 [1] [0, 0, 0, 0]).2 = [0, 1, 0, 0] ∧
    initWatchedLits implicationCycle [0, 0, 0, 0] (List.replicate (3 + 1) []) =
      [[], [0, 2], [0, 1], [1, 2]] ∧
    0 ∈ watchersOf [[], [0, 2], [0, 1], [1, 2]] (varOf 1) ∧
    (updateWatchedLits (applyTargets 3 [1] [0, 0, 0, 0]).2 [-1, 2] 0
      [[], [0, 2], [0, 1], [1, 2]]).1 = 2 ∧
    regCount [[], [0, 2], [0, 1], [1, 2]] 0 ≤ 2 ∧
    wellFormed 3 implicationCycle ∧
    propagate implicationCycle (applyTargets 3 [1] [0, 0, 0, 0]).2 3 [1]
      [[], [0, 2], [0, 1], [1, 2]] [] = some (Round.done [[], [0, 2], [0, 1], [1, 2]] [2]) ∧
    (∃ u ∈ ([-1, 2] : List Int), litUnassigned (applyTargets 3 [1] [0, 0, 0, 0]).2 u ∧
      (∀ v ∈ ([-1, 2] : List Int), litUnassigned (applyTargets 3 [1] [0, 0, 0, 0]).2 v → v = u) ∧
      (∀ v ∈ ([-1, 2] : List Int), v ≠ u → litFalse (applyTargets 3 [1] [0, 0, 0, 0]).2 v) ∧
      litFalse (applyTargets 3 [1] [0, 0, 0, 0]).2 (-1) ∧
      ([-1, 2] : List Int).find?
        (fun v => decide (valAt (applyTargets 3 [1] [0, 0, 0, 0]).2 (varOf v) = 0)) = some u ∧
      ∀ (clss : Formula) (i : Nat), i < (watchersOf [[], [0, 2], [0, 1], [1, 2]] (varOf 1)).length →
        (watchersOf [[], [0, 2], [0, 1], [1, 2]] (varOf 1)).getD i 0 = 0 →
        clss.getD 0 [] = [-1, 2] →
        ∀ (fuel : Nat) (units : List Int),
          scanWatched clss (applyTargets 3 [1] [0, 0, 0, 0]).2 1 (fuel + 1) i
              [[], [0, 2], [0, 1], [1, 2]] units =
            (if units.contains (-u) then some (Round.conflict [[], [0, 2], [0, 1], [1, 2]])
             else scanWatched clss (applyTargets 3 [1] [0, 0, 0, 0]).2 1 fuel (i + 1)
              [[], [0, 2], [0, 1], [1, 2]] (insertUnit u units)) ∧
          u ∈ insertUnit u units) ∧
    (∀ w ∈ ([2] : List Int), unitImplied implicationCycle (applyTargets 3 [1] [0, 0, 0, 0]).2 w) ∧
    solve 3 implicationCycle (3 + 1) [0, 0, 0, 0] [1] [[], [0, 2], [0, 1], [1, 2]] =
      solve 3 implicationCycle 3 (applyTargets 3 [1] [0, 0, 0, 0]).2 [2]
        [[], [0, 2], [0, 1], [1, 2]] := by
  have hcount : ∀ q, regCount [[], [0, 2], [0, 1], [1, 2]] q ≤ 2 := by
    intro q
    have h := initWatchedLits_regCount_le_two 3 implicationCycle [0, 0, 0, 0] q
    have e : initWatchedLits implicationCycle [0, 0, 0, 0] (List.replicate (3 + 1) []) =
        [[], [0, 2], [0, 1], [1, 2]] := by decide
    rw [e] at h
    exact h
  have hnt : ∀ c ∈ implicationCycle, ∀ v ∈ c, -v ∉ c := by decide
  have hprop : propagate implicationCycle (applyTargets 3 [1] [0, 0, 0, 0]).2 3 [1]
      [[], [0, 2], [0, 1], [1, 2]] [] = some (Round.done [[], [0, 2], [0, 1], [1, 2]] [2]) := by
    decide
  obtain ⟨e1, e2⟩ := recorded_unit_is_implied 3 [0, 0, 0, 0] [1] 1 [-1, 2] 0
    [[], [0, 2], [0, 1], [1, 2]] rfl (by decide) (by decide) (by decide) (by decide)
    (by decide) (hcount 0) (by decide)
  obtain ⟨r1, r2⟩ := e2 implicationCycle 3 [[], [0, 2], [0, 1], [1, 2]]
    [[], [0, 2], [0, 1], [1, 2]] [2] (by decide) hnt rfl hcount hprop
  exact ⟨rfl, by decide, by decide, by decide, by decide, by decide, hcount 0, by decide, hprop,
    e1, r1, r2 (by decide) (by decide)⟩

end SatSolver
